import Mathlib

/-!
Verification of the CUDA `customManyParticle.cu` neighbor-search /
interaction pipeline and of the `ReferenceGayBerneForce` geometry guard.

Device `real` arithmetic is modelled exactly over `ℚ` (the ideal semantics
of the floating code).  Each kernel is shallowly embedded: per-thread work
becomes a pure function, grid loops become folds in thread order, and
concurrency is accounted for by quantifying over permutations of the
atomically-ordered events wherever the schedule can vary.
-/

/-- Three rational components, modelling the xyz part of `real3`/`real4`. -/
structure V3 where
  x : ℚ
  y : ℚ
  z : ℚ
  deriving DecidableEq

/-- One component of the minimum-image fold used throughout the kernels:
`x - floor(x*invL + 0.5)*L` (see `delta` and the block pruning code). -/
def miQ (L x : ℚ) : ℚ := x - (⌊x / L + 1/2⌋ : ℤ) * L

/-- One component of the periodic wrap applied to a difference vector:
identity when the kernel is compiled without `USE_PERIODIC`. -/
def wrapDeltaS : Option ℚ → ℚ → ℚ
  | none, d => d
  | some L, d => miQ L d

/-- One component of `findBlockBounds`' fold of a position toward a running
reference point: `pos - floor((pos-center)*invL + 0.5)*L`. -/
def wrapNearS : Option ℚ → ℚ → ℚ → ℚ
  | none, _, p => p
  | some L, c, p => p - (⌊(p - c) / L + 1/2⌋ : ℤ) * L

/-- One component of `findBlockBounds`' fold of the first position of a tile
into the primary box image: `pos - floor(pos*invL)*L`. -/
def wrap0S : Option ℚ → ℚ → ℚ
  | none, p => p
  | some L, p => p - (⌊p / L⌋ : ℤ) * L

/-- `q` is a periodic image of `pos` (equal to it when not periodic). -/
def isImage : Option ℚ → ℚ → ℚ → Prop
  | none, pos, q => q = pos
  | some L, pos, q => ∃ k : ℤ, q = pos + k * L

lemma miQ_eq_sub_round (L x : ℚ) : miQ L x = x - (round (x / L) : ℤ) * L := by
  rw [miQ, round_eq]

lemma wrapNearS_some (L c p : ℚ) :
    wrapNearS (some L) c p = c + miQ L (p - c) := by
  simp only [wrapNearS, miQ]
  ring

lemma miQ_add_int_mul (L x : ℚ) (hL : L ≠ 0) (k : ℤ) :
    miQ L (x + k * L) = miQ L x := by
  have h : (x + k * L) / L = x / L + (k : ℚ) := by
    field_simp
  rw [miQ_eq_sub_round, miQ_eq_sub_round, h]
  have : round (x / L + (k : ℚ)) = round (x / L) + k := round_add_int _ _
  rw [this]
  push_cast
  ring

lemma abs_miQ_le_half (L x : ℚ) (hL : 0 < L) : |miQ L x| ≤ L / 2 := by
  have h1 : |x / L - round (x / L)| ≤ 1 / 2 := abs_sub_round (x / L)
  have hx : miQ L x = (x / L - round (x / L)) * L := by
    rw [miQ_eq_sub_round]
    field_simp
    ring
  rw [hx, abs_mul, abs_of_pos hL]
  calc |x / L - (round (x / L) : ℚ)| * L ≤ (1 / 2) * L :=
        mul_le_mul_of_nonneg_right h1 hL.le
    _ = L / 2 := by ring

lemma abs_miQ_lower (L d e : ℚ) (hL : 0 < L) (hd : |d| ≤ L / 2) :
    |d| - |e| ≤ |miQ L (d + e)| := by
  have hmi : miQ L (d + e) = (d + e) - (round ((d + e) / L) : ℤ) * L :=
    miQ_eq_sub_round _ _
  set n : ℤ := round ((d + e) / L) with hn
  by_cases h0 : n = 0
  · rw [hmi, h0]
    have : |d| ≤ |d + e| + |e| := by
      calc |d| = |(d + e) + (-e)| := by ring_nf
        _ ≤ |d + e| + |(-e)| := abs_add _ _
        _ = |d + e| + |e| := by rw [abs_neg]
    simpa [sub_le_iff_le_add] using this
  · have hn1 : (1 : ℚ) ≤ |(n : ℚ)| := by
      have : (1 : ℤ) ≤ |n| := Int.one_le_abs h0
      exact_mod_cast this
    have hnL : L ≤ |((n : ℤ) : ℚ) * L| := by
      rw [abs_mul, abs_of_pos hL]
      nlinarith
    have hde : |d + e| ≤ |d| + |e| := abs_add _ _
    have htri : |(n : ℤ) * L| - |d + e| ≤ |(d + e) - (n : ℤ) * L| := by
      have := abs_sub_abs_le_abs_sub ((n : ℤ) * L : ℚ) (d + e)
      calc |((n : ℤ) : ℚ) * L| - |d + e| ≤ |((n : ℤ) : ℚ) * L - (d + e)| := this
        _ = |(d + e) - ((n : ℤ) : ℚ) * L| := abs_sub_comm _ _
    rw [hmi]
    push_cast at hnL htri ⊢
    nlinarith [abs_nonneg e, abs_nonneg d]

lemma abs_sep_lower (c1 c2 s1 s2 x1 x2 : ℚ)
    (h1 : |x1 - c1| ≤ s1) (h2 : |x2 - c2| ≤ s2) :
    |c1 - c2| - s1 - s2 ≤ |x1 - x2| := by
  have : |c1 - c2| ≤ |x1 - x2| + |x1 - c1| + |x2 - c2| := by
    calc |c1 - c2| = |(-(x1 - c1)) + ((x1 - x2) + (x2 - c2))| := by ring_nf
      _ ≤ |(-(x1 - c1))| + |(x1 - x2) + (x2 - c2)| := abs_add _ _
      _ ≤ |(-(x1 - c1))| + (|x1 - x2| + |x2 - c2|) :=
          add_le_add_left (abs_add _ _) _
      _ = |x1 - c1| + (|x1 - x2| + |x2 - c2|) := by rw [abs_neg]
      _ = |x1 - x2| + |x1 - c1| + |x2 - c2| := by ring
  linarith

/-- The conservative per-component box separation computed by the pruning
test is a lower bound on the per-component wrapped pair distance, provided
some image of each position lies inside its box. -/
lemma sep_le_abs_wrapDeltaS (Lopt : Option ℚ) (hL : ∀ L ∈ Lopt, 0 < L)
    (c1 s1 c2 s2 x1 x2 q1 q2 : ℚ)
    (h1 : isImage Lopt x1 q1) (h2 : isImage Lopt x2 q2)
    (hb1 : |q1 - c1| ≤ s1) (hb2 : |q2 - c2| ≤ s2) :
    max 0 (|wrapDeltaS Lopt (c1 - c2)| - s1 - s2) ≤ |wrapDeltaS Lopt (x1 - x2)| := by
  rcases Lopt with _ | L
  · simp only [isImage] at h1 h2
    subst h1
    subst h2
    exact max_le (abs_nonneg _) (by
      have := abs_sep_lower c1 c2 s1 s2 q1 q2 hb1 hb2
      simpa [wrapDeltaS] using this)
  · have hLpos : 0 < L := hL L rfl
    obtain ⟨k1, hk1⟩ := h1
    obtain ⟨k2, hk2⟩ := h2
    simp only [wrapDeltaS]
    set d : ℚ := miQ L (c1 - c2) with hdd
    set m : ℤ := round ((c1 - c2) / L) with hmm
    set e : ℚ := (q1 - c1) - (q2 - c2) with hee
    have hdle : |d| ≤ L / 2 := abs_miQ_le_half L _ hLpos
    have he : |e| ≤ s1 + s2 := by
      calc |e| ≤ |q1 - c1| + |q2 - c2| := abs_sub _ _
        _ ≤ s1 + s2 := add_le_add hb1 hb2
    have hd' : d = (c1 - c2) - (m : ℚ) * L := by
      rw [hdd, miQ_eq_sub_round, ← hmm]
    have hx12 : x1 - x2 = (d + e) + ((m - k1 + k2 : ℤ) : ℚ) * L := by
      have e1 : x1 = q1 - (k1 : ℚ) * L := by rw [hk1]; ring
      have e2 : x2 = q2 - (k2 : ℚ) * L := by rw [hk2]; ring
      rw [e1, e2, hee, hd']
      push_cast
      ring
    have hmiq : miQ L (x1 - x2) = miQ L (d + e) := by
      rw [hx12]
      exact miQ_add_int_mul L (d + e) (ne_of_gt hLpos) _
    rw [hmiq]
    refine max_le (abs_nonneg _) ?_
    have := abs_miQ_lower L d e hLpos hdle
    linarith

/-- Scan of an exclusion segment from its highest index downward, as in the
loop body of `isInteractionExcluded`: stop with `true` on a match, with
`false` as soon as a stored index is at or below `atom1`. -/
def scanExclusions (atom1 atom2 : ℕ) : List ℕ → Bool
  | [] => false
  | e :: rest =>
    if e = atom2 then true
    else if e ≤ atom1 then false
    else scanExclusions atom1 atom2 rest

lemma scanExclusions_desc (atom1 atom2 : ℕ) (h12 : atom1 < atom2) :
    ∀ r : List ℕ, List.Pairwise (fun a b => b ≤ a) r →
      (scanExclusions atom1 atom2 r = true ↔ atom2 ∈ r) := by
  intro r
  induction r with
  | nil => simp [scanExclusions]
  | cons e rest ih =>
    intro hp
    have he : ∀ b ∈ rest, b ≤ e := (List.pairwise_cons.mp hp).1
    have hrest := ih (List.pairwise_cons.mp hp).2
    by_cases h1 : e = atom2
    · subst h1
      simp [scanExclusions]
    · by_cases h2 : e ≤ atom1
      · rw [show scanExclusions atom1 atom2 (e :: rest) = false by
          simp [scanExclusions, h1, h2]]
        simp only [Bool.false_eq_true, false_iff]
        intro h
        rcases List.mem_cons.mp h with h | h
        · exact h1 h.symm
        · exact absurd ((he atom2 h).trans h2) (not_le.mpr h12)
      · rw [show scanExclusions atom1 atom2 (e :: rest) =
            scanExclusions atom1 atom2 rest by simp [scanExclusions, h1, h2]]
        rw [hrest, List.mem_cons]
        constructor
        · exact Or.inr
        · rintro (h | h)
          · exact absurd h.symm h1
          · exact h

/-- Input state shared by the neighbor-search kernels: atom count, tile
width, squared cutoff, optional periodic box, positions (total on ℕ to
model padded atoms read past `NUM_ATOMS`), and the exclusion CSR arrays. -/
structure NeighborParams where
  numAtoms : ℕ
  tileSize : ℕ
  cutoffSq : ℚ
  periodic : Option V3
  posq : ℕ → V3
  exclusions : List ℕ
  exclusionStartIndex : List ℕ

/-- The slice `exclusions[exclusionStartIndex[atom] .. exclusionStartIndex[atom+1])`. -/
def exclusionSegment (p : NeighborParams) (atom : ℕ) : List ℕ :=
  (p.exclusions.take (p.exclusionStartIndex.getD (atom + 1) 0)).drop
    (p.exclusionStartIndex.getD atom 0)

/-- `isInteractionExcluded`: the device loop walks indices from
`exclusionStartIndex[atom1+1]-1` down to `exclusionStartIndex[atom1]`,
i.e. it scans the segment reversed. -/
def isInteractionExcluded (p : NeighborParams) (atom1 atom2 : ℕ) : Bool :=
  scanExclusions atom1 atom2 (exclusionSegment p atom1).reverse

/-- Shared correctness of the early-exit exclusion membership test. -/
lemma isInteractionExcluded_iff (p : NeighborParams) (atom1 atom2 : ℕ)
    (hs : List.Sorted (· ≤ ·) (exclusionSegment p atom1)) (h12 : atom1 < atom2) :
    isInteractionExcluded p atom1 atom2 = true ↔ atom2 ∈ exclusionSegment p atom1 := by
  have hp : List.Pairwise (fun a b => b ≤ a) (exclusionSegment p atom1).reverse := by
    rw [List.pairwise_reverse]
    exact hs
  rw [isInteractionExcluded, scanExclusions_desc atom1 atom2 h12 _ hp,
    List.mem_reverse]

/-- C6: assuming each particle's exclusion segment is sorted ascending, for
every query with `atom2 > atom1`, `isInteractionExcluded atom1 atom2`
returns true iff `atom2` occurs in `atom1`'s segment; the early exit on a
stored index at or below `atom1` never skips a matching entry. -/
theorem c6_isInteractionExcluded_correct (p : NeighborParams) (atom1 atom2 : ℕ)
    (hs : List.Sorted (· ≤ ·) (exclusionSegment p atom1)) (h12 : atom1 < atom2) :
    isInteractionExcluded p atom1 atom2 = true ↔ atom2 ∈ exclusionSegment p atom1 :=
  isInteractionExcluded_iff p atom1 atom2 hs h12

/-- Concrete exclusion CSR used to witness C6: two particles, particle 0
excluding 2 and 5 (sorted segment). -/
def c6Params : NeighborParams where
  numAtoms := 6
  tileSize := 1
  cutoffSq := 1
  periodic := none
  posq := fun _ => ⟨0, 0, 0⟩
  exclusions := [2, 5, 0]
  exclusionStartIndex := [0, 2, 3]

theorem c6_witness :
    (isInteractionExcluded c6Params 0 5 = true ↔ 5 ∈ exclusionSegment c6Params 0) ∧
      isInteractionExcluded c6Params 0 5 = true ∧
      isInteractionExcluded c6Params 0 3 = false := by
  refine ⟨c6_isInteractionExcluded_correct c6Params 0 5 (by decide) (by decide),
    by decide, by decide⟩

/-- `delta` (device helper): difference vector of two positions with the
optional periodic minimum-image fold applied per component. -/
def delta (per : Option V3) (v1 v2 : V3) : V3 :=
  ⟨wrapDeltaS (per.map V3.x) (v1.x - v2.x),
   wrapDeltaS (per.map V3.y) (v1.y - v2.y),
   wrapDeltaS (per.map V3.z) (v1.z - v2.z)⟩

/-- The `w` component `delta` returns: the squared wrapped distance. -/
def deltaW (per : Option V3) (v1 v2 : V3) : ℚ :=
  let r := delta per v1 v2
  r.x * r.x + r.y * r.y + r.z * r.z

/-- Number of tiles covering the atoms.  `NUM_BLOCKS` is a compile-time
constant supplied by the host; `findBlockBounds` computes a box for every
index with `index*TILE_SIZE < NUM_ATOMS`, so it equals `⌈NUM_ATOMS/TILE_SIZE⌉`. -/
def numBlocks (p : NeighborParams) : ℕ := (p.numAtoms + p.tileSize - 1) / p.tileSize

def vmin (a b : V3) : V3 := ⟨min a.x b.x, min a.y b.y, min a.z b.z⟩

def vmax (a b : V3) : V3 := ⟨max a.x b.x, max a.y b.y, max a.z b.z⟩

/-- First-position fold of `findBlockBounds` (into the primary box image). -/
def wrapPos0 (per : Option V3) (v : V3) : V3 :=
  ⟨wrap0S (per.map V3.x) v.x, wrap0S (per.map V3.y) v.y, wrap0S (per.map V3.z) v.z⟩

/-- Subsequent-position fold of `findBlockBounds` (toward a running center). -/
def wrapPosNear (per : Option V3) (c v : V3) : V3 :=
  ⟨wrapNearS (per.map V3.x) c.x v.x,
   wrapNearS (per.map V3.y) c.y v.y,
   wrapNearS (per.map V3.z) c.z v.z⟩

/-- One iteration of `findBlockBounds`' inner loop: fold the next position
toward `0.5*(maxPos+minPos)` and extend the running min/max. -/
def bbStep (per : Option V3) (posq : ℕ → V3) (st : V3 × V3) (i : ℕ) : V3 × V3 :=
  let c : V3 := ⟨(st.2.x + st.1.x) / 2, (st.2.y + st.1.y) / 2, (st.2.z + st.1.z) / 2⟩
  let pos := wrapPosNear per c (posq i)
  (vmin st.1 pos, vmax st.2 pos)

/-- `findBlockBounds` for one tile: the (minPos, maxPos) pair after folding
atoms `base+1 .. min(base+TILE_SIZE, NUM_ATOMS)-1` onto the first one. -/
def blockMinMax (p : NeighborParams) (b : ℕ) : V3 × V3 :=
  let base := b * p.tileSize
  let p0 := wrapPos0 p.periodic (p.posq base)
  let last := min (base + p.tileSize) p.numAtoms
  (List.range' (base + 1) (last - (base + 1))).foldl (bbStep p.periodic p.posq) (p0, p0)

/-- `blockCenter[b] = 0.5*(maxPos+minPos)`. -/
def blockCenter (p : NeighborParams) (b : ℕ) : V3 :=
  let mm := blockMinMax p b
  ⟨(mm.2.x + mm.1.x) / 2, (mm.2.y + mm.1.y) / 2, (mm.2.z + mm.1.z) / 2⟩

/-- `blockBoundingBox[b] = 0.5*(maxPos-minPos)` (the half extents). -/
def blockBoundingBox (p : NeighborParams) (b : ℕ) : V3 :=
  let mm := blockMinMax p b
  ⟨(mm.2.x - mm.1.x) / 2, (mm.2.y - mm.1.y) / 2, (mm.2.z - mm.1.z) / 2⟩

/-- The conservative tile-vs-tile pruning test of `findNeighbors`: wrap the
center difference, subtract both half extents (clamped at 0) per component,
and compare the squared remainder against `CUTOFF_SQUARED`. -/
def blockTest (p : NeighborParams) (b1 b2 : ℕ) : Bool :=
  let c1 := blockCenter p b1
  let s1 := blockBoundingBox p b1
  let c2 := blockCenter p b2
  let s2 := blockBoundingBox p b2
  let dx := max 0 (|wrapDeltaS (p.periodic.map V3.x) (c1.x - c2.x)| - s1.x - s2.x)
  let dy := max 0 (|wrapDeltaS (p.periodic.map V3.y) (c1.y - c2.y)| - s1.y - s2.y)
  let dz := max 0 (|wrapDeltaS (p.periodic.map V3.z) (c1.z - c2.z)| - s1.z - s2.z)
  decide (dx * dx + dy * dy + dz * dz < p.cutoffSq)

/-- The pair-acceptance predicate of `findNeighbors`' innermost loop, in the
source's evaluation order. -/
def includeAtomB (p : NeighborParams) (atom1 atom2 : ℕ) : Bool :=
  (decide (atom1 < atom2) && decide (atom2 < p.numAtoms) &&
    decide (deltaW p.periodic (p.posq atom1) (p.posq atom2) < p.cutoffSq)) &&
  !isInteractionExcluded p atom1 atom2

/-- The atoms of tile `block2` accepted as neighbors of `atom1`; the loop
visits all `TILE_SIZE` slots of the tile, including padded ones. -/
def includedAtoms (p : NeighborParams) (atom1 block2 : ℕ) : List ℕ :=
  (List.range' (block2 * p.tileSize) p.tileSize).filter (includeAtomB p atom1)

/-- Tiles scanned for `atom1`: every block index from its own to the last. -/
def blocksToSearch (p : NeighborParams) (block1 : ℕ) : List ℕ :=
  List.range' block1 (numBlocks p - block1)

/-- All neighbors `findNeighbors` accepts for `atom1` (tiles that fail the
bounding-box pruning contribute nothing). -/
def acceptedForAtom (p : NeighborParams) (atom1 : ℕ) : List ℕ :=
  (blocksToSearch p (atom1 / p.tileSize)).flatMap fun block2 =>
    if blockTest p (atom1 / p.tileSize) block2 then includedAtoms p atom1 block2 else []

/-- `numNeighborsForAtom[atom1]`: the count accumulated thread-locally by
`totalNeighborsForAtom1 += numIncluded` over the tiles that pass pruning. -/
def numNeighborsForAtom (p : NeighborParams) (atom1 : ℕ) : ℕ :=
  (blocksToSearch p (atom1 / p.tileSize)).foldl
    (fun t block2 =>
      t + (if blockTest p (atom1 / p.tileSize) block2 then
        (includedAtoms p atom1 block2).length else 0)) 0

/-- The nonempty per-tile batches `(atom1, included)` that `findNeighbors`
reserves space for with one `atomicAdd(numNeighborPairs, numIncluded)`. -/
def batchesForAtom (p : NeighborParams) (atom1 : ℕ) : List (ℕ × List ℕ) :=
  (blocksToSearch p (atom1 / p.tileSize)).filterMap fun block2 =>
    if blockTest p (atom1 / p.tileSize) block2 then
      (if includedAtoms p atom1 block2 = [] then none
       else some (atom1, includedAtoms p atom1 block2))
    else none

/-- All batches of one invocation; a device schedule commits them in some
permutation of this list. -/
def allBatches (p : NeighborParams) : List (ℕ × List ℕ) :=
  (List.range p.numAtoms).flatMap (batchesForAtom p)

/-- All accepted pairs `(atom1, atom2)` of one invocation. -/
def allAcceptedPairs (p : NeighborParams) : List (ℕ × ℕ) :=
  (List.range p.numAtoms).flatMap fun a => (acceptedForAtom p a).map fun j => (a, j)

/-- The total accepted pair count (sum of the per-atom counters). -/
def totalNumNeighborPairs (p : NeighborParams) : ℕ :=
  ((List.range p.numAtoms).map (numNeighborsForAtom p)).sum

/-- Committing one batch: `baseIndex = atomicAdd(numNeighborPairs, n)`;
the batch's pairs are written only if `baseIndex + n <= maxNeighborPairs`. -/
def commitStep (maxNeighborPairs : ℕ) (st : ℕ × List (ℕ × ℕ)) (batch : ℕ × List ℕ) :
    ℕ × List (ℕ × ℕ) :=
  let baseIndex := st.1
  let n := batch.2.length
  (baseIndex + n,
    if baseIndex + n ≤ maxNeighborPairs then
      st.2 ++ batch.2.map fun j => (batch.1, j)
    else st.2)

/-- Committing a schedule's batch order: final `numNeighborPairs` counter
value and the contents of the `neighborPairs` buffer. -/
def commitBatches (maxNeighborPairs : ℕ) (l : List (ℕ × List ℕ)) : ℕ × List (ℕ × ℕ) :=
  l.foldl (commitStep maxNeighborPairs) (0, [])

/-- The brute-force neighbor predicate the spec compares against:
`i < j < NUM_ATOMS`, wrapped squared distance below cutoff², and `(i, j)`
not in the exclusion set (CSR forward storage: `j` in `i`'s segment). -/
def bruteNeighbor (p : NeighborParams) (i j : ℕ) : Prop :=
  i < j ∧ j < p.numAtoms ∧
    deltaW p.periodic (p.posq i) (p.posq j) < p.cutoffSq ∧
    j ∉ exclusionSegment p i

instance (p : NeighborParams) (i j : ℕ) : Decidable (bruteNeighbor p i j) := by
  unfold bruteNeighbor
  infer_instance

/-- Loop body of `copyPairsToNeighborList`: scatter buffered pair `index`,
`(i, j)`, to `neighbors[neighborStartIndex[i] + atomicAdd(numNeighborsForAtom + i, 1)]`
(the `atomicAdd` returns the old cursor and bumps it).  State is the pair
(cursor array, neighbors array). -/
def copyPairStep (neighborPairs : ℕ → ℕ × ℕ) (neighborStartIndex : ℕ → ℕ)
    (st : (ℕ → ℕ) × (ℕ → ℕ)) (index : ℕ) : (ℕ → ℕ) × (ℕ → ℕ) :=
  let pair := neighborPairs index
  let startIndex := neighborStartIndex pair.1
  let offset := st.1 pair.1
  (Function.update st.1 pair.1 (offset + 1),
   Function.update st.2 (startIndex + offset) pair.2)

/-- `copyPairsToNeighborList`: return untouched if the counter exceeds
capacity, else scatter every buffered pair. -/
def copyPairsToNeighborList (neighborPairs : ℕ → ℕ × ℕ)
    (numNeighborPairs maxNeighborPairs : ℕ) (numNeighborsForAtomBuf : ℕ → ℕ)
    (neighborStartIndex : ℕ → ℕ) (neighbors : ℕ → ℕ) : (ℕ → ℕ) × (ℕ → ℕ) :=
  if maxNeighborPairs < numNeighborPairs then (numNeighborsForAtomBuf, neighbors)
  else
    (List.range numNeighborPairs).foldl
      (copyPairStep neighborPairs neighborStartIndex)
      (numNeighborsForAtomBuf, neighbors)

/-- C10: the inner loop of `findNeighbors` visits all `TILE_SIZE` slots of a
tile — in a final partial tile this includes slot indices at or beyond
`NUM_ATOMS` — but the acceptance predicate requires `atom2 < NUM_ATOMS`, so
no accepted neighbor (hence nothing counted or buffered) lies outside the
active range. -/
theorem c10_partialTile_safe (p : NeighborParams) (atom1 block2 : ℕ)
    (hT : 0 < p.tileSize) :
    (List.range' (block2 * p.tileSize) p.tileSize).length = p.tileSize ∧
    (p.numAtoms < (block2 + 1) * p.tileSize →
      ∃ s ∈ List.range' (block2 * p.tileSize) p.tileSize, p.numAtoms ≤ s) ∧
    (∀ j ∈ includedAtoms p atom1 block2, atom1 < j ∧ j < p.numAtoms) ∧
    (∀ pr ∈ allAcceptedPairs p, pr.2 < p.numAtoms) := by
  refine ⟨List.length_range' _ _ _, ?_, ?_, ?_⟩
  · intro h
    have hkey : (block2 + 1) * p.tileSize = block2 * p.tileSize + p.tileSize := by
      ring
    refine ⟨(block2 + 1) * p.tileSize - 1, ?_, ?_⟩
    · rw [List.mem_range'_1]
      omega
    · omega
  · intro j hj
    have := List.of_mem_filter hj
    simp only [includeAtomB, Bool.and_eq_true, decide_eq_true_eq] at this
    exact ⟨this.1.1.1, this.1.1.2⟩
  · intro pr hpr
    rw [allAcceptedPairs, List.mem_flatMap] at hpr
    obtain ⟨a, _, hpr⟩ := hpr
    rw [List.mem_map] at hpr
    obtain ⟨j, hj, rfl⟩ := hpr
    rw [acceptedForAtom, List.mem_flatMap] at hj
    obtain ⟨b2, _, hj⟩ := hj
    by_cases hb : blockTest p (a / p.tileSize) b2
    · rw [if_pos hb] at hj
      have := List.of_mem_filter hj
      simp only [includeAtomB, Bool.and_eq_true, decide_eq_true_eq] at this
      exact this.1.1.2
    · rw [if_neg hb] at hj
      exact absurd hj (List.not_mem_nil _)

/-- Concrete input for the C10 witness: 3 atoms, tile width 2, so tile 1 is
the partial tile covering slots 2 and 3 (slot 3 is past `NUM_ATOMS`). -/
def c10Params : NeighborParams where
  numAtoms := 3
  tileSize := 2
  cutoffSq := 100
  periodic := none
  posq := fun n => ⟨(n : ℚ), 0, 0⟩
  exclusions := []
  exclusionStartIndex := [0, 0, 0, 0]

theorem c10_witness :
    (List.range' (1 * c10Params.tileSize) c10Params.tileSize).length = c10Params.tileSize ∧
    (c10Params.numAtoms < (1 + 1) * c10Params.tileSize →
      ∃ s ∈ List.range' (1 * c10Params.tileSize) c10Params.tileSize,
        c10Params.numAtoms ≤ s) ∧
    (∀ j ∈ includedAtoms c10Params 0 1, 0 < j ∧ j < c10Params.numAtoms) ∧
    (∀ pr ∈ allAcceptedPairs c10Params, pr.2 < c10Params.numAtoms) :=
  c10_partialTile_safe c10Params 0 1 (by decide)

/-- One step of the intra-window ladder scan in `computeNeighborStartIndices`:
`add = (t >= step ? buf[t-step] : 0); buf[t] += add` for all lanes at once. -/
def hsStep (step : ℕ) (buf : ℕ → ℕ) : ℕ → ℕ :=
  fun t => buf t + (if step ≤ t then buf (t - step) else 0)

/-- The scan loop `for (step = 1; step < blockDim; step *= 2)`, with explicit
fuel (the loop executes at most `blockDim` doublings). -/
def hsIter (blockDim : ℕ) : ℕ → ℕ → (ℕ → ℕ) → (ℕ → ℕ)
  | 0, _, buf => buf
  | fuel + 1, step, buf =>
    if step < blockDim then hsIter blockDim fuel (2 * step) (hsStep step buf) else buf

/-- The full intra-window inclusive scan. -/
def hillisScan (blockDim : ℕ) (buf : ℕ → ℕ) : ℕ → ℕ :=
  hsIter blockDim blockDim 1 buf

lemma hsIter_eq (blockDim : ℕ) (v : ℕ → ℕ) :
    ∀ (fuel step : ℕ) (buf : ℕ → ℕ), 0 < step →
      blockDim ≤ step * 2 ^ fuel →
      (∀ t, t < blockDim → buf t = ∑ i in Finset.Ico (t + 1 - step) (t + 1), v i) →
      ∀ t, t < blockDim →
        hsIter blockDim fuel step buf t = ∑ i in Finset.range (t + 1), v i := by
  intro fuel
  induction fuel with
  | zero =>
    intro step buf hstep hcov hbuf t ht
    simp only [hsIter]
    rw [hbuf t ht]
    have h0 : t + 1 - step = 0 := by
      have : blockDim ≤ step := by simpa using hcov
      omega
    rw [h0, ← Finset.range_eq_Ico]
  | succ fuel ih =>
    intro step buf hstep hcov hbuf t ht
    simp only [hsIter]
    by_cases hlt : step < blockDim
    · rw [if_pos hlt]
      refine ih (2 * step) (hsStep step buf) (by omega) ?_ ?_ t ht
      · have : step * 2 ^ (fuel + 1) = 2 * step * 2 ^ fuel := by ring
        omega
      · intro u hu
        simp only [hsStep]
        by_cases hus : step ≤ u
        · rw [if_pos hus, hbuf u hu, hbuf (u - step) (by omega)]
          have e1 : u - step + 1 = u + 1 - step := by omega
          have e2 : u + 1 - step - step = u + 1 - 2 * step := by omega
          rw [e1, e2]
          rw [add_comm]
          exact Finset.sum_Ico_consecutive v (by omega) (by omega)
        · rw [if_neg hus, hbuf u hu]
          have : u + 1 - step = u + 1 - 2 * step := by omega
          rw [this, add_zero]
    · rw [if_neg hlt]
      rw [hbuf t ht]
      have h0 : t + 1 - step = 0 := by omega
      rw [h0, ← Finset.range_eq_Ico]

lemma hillisScan_eq (blockDim : ℕ) (v : ℕ → ℕ) (hb : 0 < blockDim)
    (t : ℕ) (ht : t < blockDim) :
    hillisScan blockDim v t = ∑ i in Finset.range (t + 1), v i := by
  refine hsIter_eq blockDim v blockDim 1 v (by omega) ?_ ?_ t ht
  · have := Nat.lt_two_pow blockDim
    omega
  · intro u _
    have : u + 1 - 1 = u := by omega
    rw [this]
    rw [Nat.Ico_succ_singleton, Finset.sum_singleton]

/-- The values loaded into `posBuffer` for the window starting at `startAtom`:
the neighbor counts, or 0 past the end of the atom range. -/
def windowScanValues (counts : ℕ → ℕ) (numAtoms startAtom : ℕ) : ℕ → ℕ :=
  fun t => if startAtom + t < numAtoms then counts (startAtom + t) else 0

/-- The write-back of one window: lane `t` (with `startAtom + t < NUM_ATOMS`)
stores `posBuffer[t] + globalOffset` into `neighborStartIndex[startAtom+t+1]`. -/
def windowWrite (blockDim numAtoms startAtom globalOffset : ℕ) (scanned : ℕ → ℕ)
    (out : ℕ → ℕ) : ℕ → ℕ :=
  fun idx =>
    if startAtom < idx ∧ idx ≤ startAtom + blockDim ∧ idx ≤ numAtoms then
      scanned (idx - (startAtom + 1)) + globalOffset
    else out idx

/-- The outer window loop of `computeNeighborStartIndices`, recursing over
the number of remaining windows and carrying the running `globalOffset`. -/
def nsLoop (blockDim numAtoms : ℕ) (counts : ℕ → ℕ) :
    ℕ → ℕ → ℕ → (ℕ → ℕ) → (ℕ → ℕ)
  | 0, _, _, out => out
  | k + 1, startAtom, globalOffset, out =>
    let scanned := hillisScan blockDim (windowScanValues counts numAtoms startAtom)
    nsLoop blockDim numAtoms counts k (startAtom + blockDim)
      (globalOffset + scanned (blockDim - 1))
      (windowWrite blockDim numAtoms startAtom globalOffset scanned out)

/-- `computeNeighborStartIndices`: run every window over an arbitrary initial
buffer, then thread 0 stores `neighborStartIndex[0] = 0`. -/
def computeNeighborStartIndices (blockDim : ℕ) (counts : ℕ → ℕ) (numAtoms : ℕ)
    (init : ℕ → ℕ) : ℕ → ℕ :=
  Function.update
    (nsLoop blockDim numAtoms counts ((numAtoms + blockDim - 1) / blockDim) 0 0 init)
    0 0

lemma sum_windowScanValues (counts : ℕ → ℕ) (numAtoms startAtom : ℕ) :
    ∀ n, (∑ i in Finset.range n, windowScanValues counts numAtoms startAtom i) =
      ∑ j in Finset.Ico (min startAtom numAtoms) (min (startAtom + n) numAtoms), counts j := by
  intro n
  induction n with
  | zero => simp
  | succ n ih =>
    rw [Finset.sum_range_succ, ih]
    by_cases h : startAtom + n < numAtoms
    · have e1 : min (startAtom + n) numAtoms = startAtom + n := by omega
      have e2 : min (startAtom + (n + 1)) numAtoms = startAtom + n + 1 := by omega
      rw [e1, e2, windowScanValues, if_pos h,
        Finset.sum_Ico_succ_top (by omega : min startAtom numAtoms ≤ startAtom + n)]
    · have e1 : min (startAtom + n) numAtoms = min (startAtom + (n + 1)) numAtoms := by
        omega
      rw [windowScanValues, if_neg h, add_zero, e1]

lemma nsLoop_spec (blockDim numAtoms : ℕ) (counts : ℕ → ℕ) (hb : 0 < blockDim) :
    ∀ (k startAtom globalOffset : ℕ) (out : ℕ → ℕ),
      globalOffset = (∑ i in Finset.range (min startAtom numAtoms), counts i) →
      (∀ idx, startAtom < idx → idx ≤ numAtoms → idx ≤ startAtom + k * blockDim →
        nsLoop blockDim numAtoms counts k startAtom globalOffset out idx =
          ∑ i in Finset.range idx, counts i) ∧
      (∀ idx, idx ≤ startAtom →
        nsLoop blockDim numAtoms counts k startAtom globalOffset out idx = out idx) := by
  intro k
  induction k with
  | zero =>
    intro startAtom globalOffset out hgo
    refine ⟨?_, ?_⟩
    · intro idx h1 _ h3
      omega
    · intro idx _
      simp [nsLoop]
  | succ k ih =>
    intro startAtom globalOffset out hgo
    simp only [nsLoop]
    set vals := windowScanValues counts numAtoms startAtom with hvals
    set scanned := hillisScan blockDim vals with hscan
    have hscanEq : ∀ t, t < blockDim →
        scanned t = ∑ i in Finset.range (t + 1), vals i := by
      intro t ht
      exact hillisScan_eq blockDim vals hb t ht
    have hgo' : globalOffset + scanned (blockDim - 1) =
        ∑ i in Finset.range (min (startAtom + blockDim) numAtoms), counts i := by
      rw [hscanEq (blockDim - 1) (by omega), hgo]
      have hb1 : blockDim - 1 + 1 = blockDim := by omega
      rw [hb1, sum_windowScanValues]
      rw [Finset.range_eq_Ico]
      refine Finset.sum_Ico_consecutive counts ?_ ?_
      · omega
      · omega
    have hwrite : ∀ idx, startAtom < idx → idx ≤ startAtom + blockDim →
        idx ≤ numAtoms →
        windowWrite blockDim numAtoms startAtom globalOffset scanned out idx =
          ∑ i in Finset.range idx, counts i := by
      intro idx h1 h2 h3
      rw [windowWrite, if_pos ⟨h1, h2, h3⟩]
      rw [hscanEq (idx - (startAtom + 1)) (by omega), hgo]
      have he : idx - (startAtom + 1) + 1 = idx - startAtom := by omega
      rw [he, sum_windowScanValues]
      have e1 : min (startAtom + (idx - startAtom)) numAtoms = idx := by omega
      rw [e1]
      rw [Finset.range_eq_Ico, add_comm]
      refine Finset.sum_Ico_consecutive counts ?_ ?_
      · omega
      · omega
    obtain ⟨ihMain, ihFrame⟩ :=
      ih (startAtom + blockDim) (globalOffset + scanned (blockDim - 1))
        (windowWrite blockDim numAtoms startAtom globalOffset scanned out) hgo'
    refine ⟨?_, ?_⟩
    · intro idx h1 h2 h3
      by_cases hcase : idx ≤ startAtom + blockDim
      · rw [ihFrame idx hcase]
        exact hwrite idx h1 hcase h2
      · refine ihMain idx (by omega) h2 ?_
        have : startAtom + (k + 1) * blockDim =
            startAtom + blockDim + k * blockDim := by ring
        omega
    · intro idx hidx
      rw [ihFrame idx (by omega)]
      rw [windowWrite, if_neg]
      intro hcond
      omega

lemma computeNeighborStartIndices_eq_sum (blockDim numAtoms : ℕ)
    (counts init : ℕ → ℕ) (hb : 0 < blockDim) :
    ∀ m, m ≤ numAtoms →
      computeNeighborStartIndices blockDim counts numAtoms init m =
        ∑ i in Finset.range m, counts i := by
  intro m hm
  rcases Nat.eq_zero_or_pos m with hm0 | hmpos
  · subst hm0
    simp [computeNeighborStartIndices]
  · have hK : numAtoms ≤ (numAtoms + blockDim - 1) / blockDim * blockDim := by
      have h2 := Nat.div_add_mod (numAtoms + blockDim - 1) blockDim
      have h3 : (numAtoms + blockDim - 1) % blockDim < blockDim := Nat.mod_lt _ hb
      have h4 : (numAtoms + blockDim - 1) / blockDim * blockDim =
          blockDim * ((numAtoms + blockDim - 1) / blockDim) := Nat.mul_comm _ _
      omega
    obtain ⟨hmain, _⟩ :=
      nsLoop_spec blockDim numAtoms counts hb
        ((numAtoms + blockDim - 1) / blockDim) 0 0 init (by simp)
    rw [computeNeighborStartIndices, Function.update_noteq (by omega)]
    exact hmain m hmpos hm (by omega)

/-- C3: for every per-particle count array and every `NUM_ATOMS` (windows and
the carried global offset included), after `computeNeighborStartIndices` the
table starts at 0, consecutive differences reproduce the original counts,
the table is monotone non-decreasing, and the final entry is the total count. -/
theorem c3_computeNeighborStartIndices_correct (blockDim numAtoms : ℕ)
    (counts init : ℕ → ℕ) (hb : 0 < blockDim) :
    computeNeighborStartIndices blockDim counts numAtoms init 0 = 0 ∧
    (∀ k, k < numAtoms →
      computeNeighborStartIndices blockDim counts numAtoms init (k + 1) =
        computeNeighborStartIndices blockDim counts numAtoms init k + counts k) ∧
    (∀ j k, j ≤ k → k ≤ numAtoms →
      computeNeighborStartIndices blockDim counts numAtoms init j ≤
        computeNeighborStartIndices blockDim counts numAtoms init k) ∧
    computeNeighborStartIndices blockDim counts numAtoms init numAtoms =
      ∑ i in Finset.range numAtoms, counts i := by
  have hEq := computeNeighborStartIndices_eq_sum blockDim numAtoms counts init hb
  refine ⟨?_, ?_, ?_, ?_⟩
  · simpa using hEq 0 (by omega)
  · intro k hk
    rw [hEq (k + 1) (by omega), hEq k (by omega), Finset.sum_range_succ]
  · intro j k hjk hk
    rw [hEq j (by omega), hEq k hk]
    exact Finset.sum_le_sum_of_subset (Finset.range_subset.mpr hjk)
  · exact hEq numAtoms (le_refl _)

theorem c3_witness :
    computeNeighborStartIndices 2 (fun i => i + 1) 5 (fun _ => 7) 0 = 0 ∧
    (∀ k, k < 5 →
      computeNeighborStartIndices 2 (fun i => i + 1) 5 (fun _ => 7) (k + 1) =
        computeNeighborStartIndices 2 (fun i => i + 1) 5 (fun _ => 7) k + (k + 1)) ∧
    (∀ j k, j ≤ k → k ≤ 5 →
      computeNeighborStartIndices 2 (fun i => i + 1) 5 (fun _ => 7) j ≤
        computeNeighborStartIndices 2 (fun i => i + 1) 5 (fun _ => 7) k) ∧
    computeNeighborStartIndices 2 (fun i => i + 1) 5 (fun _ => 7) 5 =
      ∑ i in Finset.range 5, (i + 1) :=
  c3_computeNeighborStartIndices_correct 2 5 (fun i => i + 1) (fun _ => 7)
    (by decide)

/-- Truncation toward zero: the semantics of C's floating-to-`long long` cast. -/
def truncQ (q : ℚ) : ℤ := if 0 ≤ q then ⌊q⌋ else ⌈q⌉

/-- One force component converted for accumulation:
`(unsigned long long)(long long)(component * 0x100000000)`, i.e. scale by
2^32, truncate toward zero, reinterpret mod 2^64. -/
def toFixedPoint (q : ℚ) : ℕ := ((truncQ (q * 4294967296)) % (2 ^ 64 : ℤ)).toNat

/-- One 64-bit `atomicAdd` (wrapping mod 2^64) at buffer index `i`. -/
def atomicAdd64 (i d : ℕ) (buf : ℕ → ℕ) : ℕ → ℕ :=
  Function.update buf i ((buf i + d) % 2 ^ 64)

/-- `storeForce`: three atomic adds at `atom`, `atom + PADDED_NUM_ATOMS` and
`atom + 2*PADDED_NUM_ATOMS`. -/
def storeForce (paddedNumAtoms atom : ℕ) (force : V3) (buf : ℕ → ℕ) : ℕ → ℕ :=
  atomicAdd64 (atom + 2 * paddedNumAtoms) (toFixedPoint force.z)
    (atomicAdd64 (atom + paddedNumAtoms) (toFixedPoint force.y)
      (atomicAdd64 atom (toFixedPoint force.x) buf))

/-- A whole schedule of `storeForce` calls, applied in list order. -/
def runStores (paddedNumAtoms : ℕ) (calls : List (ℕ × V3)) (buf : ℕ → ℕ) : ℕ → ℕ :=
  calls.foldl (fun b c => storeForce paddedNumAtoms c.1 c.2 b) buf

/-- What one `storeForce` call adds (mod 2^64) to buffer cell `i`. -/
def cellContribution (paddedNumAtoms i : ℕ) (c : ℕ × V3) : ℕ :=
  (if c.1 = i then toFixedPoint c.2.x else 0) +
    (if c.1 + paddedNumAtoms = i then toFixedPoint c.2.y else 0) +
    (if c.1 + 2 * paddedNumAtoms = i then toFixedPoint c.2.z else 0)

lemma atomicAdd64_cell (j d : ℕ) (buf : ℕ → ℕ) (i : ℕ) (h : buf i < 2 ^ 64) :
    atomicAdd64 j d buf i = (buf i + (if j = i then d else 0)) % 2 ^ 64 := by
  by_cases hji : j = i
  · subst hji
    rw [atomicAdd64, Function.update_same, if_pos rfl]
  · rw [atomicAdd64, Function.update_noteq (by exact fun hc => hji hc.symm), if_neg hji,
      add_zero, Nat.mod_eq_of_lt h]

lemma atomicAdd64_lt (j d : ℕ) (buf : ℕ → ℕ) (hbuf : ∀ i, buf i < 2 ^ 64) :
    ∀ i, atomicAdd64 j d buf i < 2 ^ 64 := by
  intro i
  by_cases hji : j = i
  · subst hji
    rw [atomicAdd64, Function.update_same]
    exact Nat.mod_lt _ (by norm_num)
  · rw [atomicAdd64, Function.update_noteq (by exact fun hc => hji hc.symm)]
    exact hbuf i

lemma storeForce_cell (pad atom : ℕ) (f : V3) (buf : ℕ → ℕ)
    (hbuf : ∀ i, buf i < 2 ^ 64) (i : ℕ) :
    storeForce pad atom f buf i =
      (buf i + cellContribution pad i (atom, f)) % 2 ^ 64 := by
  have h1 := atomicAdd64_lt atom (toFixedPoint f.x) buf hbuf
  have h2 := atomicAdd64_lt (atom + pad) (toFixedPoint f.y) _ h1
  rw [storeForce,
    atomicAdd64_cell (atom + 2 * pad) (toFixedPoint f.z) _ i (h2 i),
    atomicAdd64_cell (atom + pad) (toFixedPoint f.y) _ i (h1 i),
    atomicAdd64_cell atom (toFixedPoint f.x) buf i (hbuf i),
    Nat.mod_add_mod, add_assoc, Nat.mod_add_mod, cellContribution]
  congr 1
  ring

lemma storeForce_lt (pad atom : ℕ) (f : V3) (buf : ℕ → ℕ)
    (hbuf : ∀ i, buf i < 2 ^ 64) :
    ∀ i, storeForce pad atom f buf i < 2 ^ 64 :=
  atomicAdd64_lt _ _ _ (atomicAdd64_lt _ _ _ (atomicAdd64_lt _ _ _ hbuf))

lemma runStores_char (pad : ℕ) :
    ∀ (l : List (ℕ × V3)) (buf : ℕ → ℕ), (∀ i, buf i < 2 ^ 64) → ∀ i,
      runStores pad l buf i =
        (buf i + (l.map (cellContribution pad i)).sum) % 2 ^ 64 := by
  intro l
  induction l with
  | nil =>
    intro buf hbuf i
    simp only [runStores, List.foldl_nil, List.map_nil, List.sum_nil, add_zero]
    exact (Nat.mod_eq_of_lt (hbuf i)).symm
  | cons c t ih =>
    intro buf hbuf i
    have hstep : runStores pad (c :: t) buf = runStores pad t (storeForce pad c.1 c.2 buf) := by
      simp [runStores]
    rw [hstep, ih (storeForce pad c.1 c.2 buf) (storeForce_lt pad c.1 c.2 buf hbuf) i,
      storeForce_cell pad c.1 c.2 buf hbuf i, Nat.mod_add_mod, List.map_cons,
      List.sum_cons, Nat.add_assoc]

/-- C7: fixed-point accumulation by wrapping 64-bit integer atomic adds is
associative-commutative, so the final force buffer contents are independent
of the order and interleaving of `storeForce` calls: any two schedules of
the same multiset of calls leave bit-identical buffers. -/
theorem c7_storeForce_order_independent (pad : ℕ) (l1 l2 : List (ℕ × V3))
    (buf : ℕ → ℕ) (hperm : l1.Perm l2) (hbuf : ∀ i, buf i < 2 ^ 64) :
    runStores pad l1 buf = runStores pad l2 buf := by
  funext i
  rw [runStores_char pad l1 buf hbuf i, runStores_char pad l2 buf hbuf i,
    (hperm.map (cellContribution pad i)).sum_eq]

theorem c7_witness :
    runStores 2 [(0, ⟨1, 0, 0⟩), (1, ⟨1/2, -3, 7⟩)] (fun _ => 0) =
      runStores 2 [(1, ⟨1/2, -3, 7⟩), (0, ⟨1, 0, 0⟩)] (fun _ => 0) :=
  c7_storeForce_order_independent 2 _ _ (fun _ => 0)
    (List.Perm.swap _ _ _) (fun _ => by norm_num)

/-- The strided index list `start, start+stride, ...` below `limit`: the
iteration space of `computeInteraction`'s grid-stride loops. -/
def stridedIdx (start stride limit : ℕ) : List ℕ :=
  List.range' start ((limit - start + stride - 1) / stride) stride

/-- The value accumulated in one worker's local `energy` variable: its
strided share of anchors `p1` (stride `gridDim`) and of combination indices
(stride `blockDim`); the contribution of one included combination (the
host-generated macros) is the uninterpreted parameter `contrib`. -/
def workerEnergy (gridDim blockDim numAtoms : ℕ) (numCombinations : ℕ → ℕ)
    (contrib : ℕ → ℕ → ℚ) (b t : ℕ) : ℚ :=
  ((stridedIdx b gridDim numAtoms).map fun p1 =>
    ((stridedIdx t blockDim (numCombinations p1)).map fun index =>
      contrib p1 index).sum).sum

/-- All workers `(blockIdx, threadIdx)` of the launch grid, in flat order. -/
def gridWorkers (gridDim blockDim : ℕ) : List (ℕ × ℕ) :=
  (List.range gridDim).flatMap fun b => (List.range blockDim).map fun t => (b, t)

/-- The effect of `computeInteraction` on `energyBuffer`: every worker ends
with `energyBuffer[blockIdx.x*blockDim.x + threadIdx.x] += energy`. -/
def computeInteractionEnergyBuffer (gridDim blockDim numAtoms : ℕ)
    (numCombinations : ℕ → ℕ) (contrib : ℕ → ℕ → ℚ)
    (energyBuffer : ℕ → ℚ) : ℕ → ℚ :=
  (gridWorkers gridDim blockDim).foldl
    (fun buf w =>
      Function.update buf (w.1 * blockDim + w.2)
        (buf (w.1 * blockDim + w.2) +
          workerEnergy gridDim blockDim numAtoms numCombinations contrib w.1 w.2))
    energyBuffer

lemma gridWorkers_map_slot (gridDim blockDim : ℕ) :
    (gridWorkers gridDim blockDim).map (fun w => w.1 * blockDim + w.2) =
      List.range (gridDim * blockDim) := by
  induction gridDim with
  | zero => simp [gridWorkers]
  | succ g ih =>
    rw [gridWorkers, List.range_succ, List.flatMap_append, List.map_append]
    rw [gridWorkers] at ih
    rw [ih]
    have h2 : (List.flatMap [g] fun b => (List.range blockDim).map fun t => (b, t)).map
        (fun w : ℕ × ℕ => w.1 * blockDim + w.2) =
        (List.range blockDim).map fun t => g * blockDim + t := by
      simp only [List.flatMap_cons, List.flatMap_nil, List.append_nil, List.map_map]
      rfl
    rw [h2]
    have h3 : (g + 1) * blockDim = g * blockDim + blockDim := by ring
    rw [h3, List.range_add]

lemma foldl_update_add (slot : ℕ × ℕ → ℕ) (e : ℕ × ℕ → ℚ) :
    ∀ (l : List (ℕ × ℕ)) (buf : ℕ → ℚ),
      List.Pairwise (fun w w' => slot w ≠ slot w') l →
      (∀ w ∈ l,
        (l.foldl (fun b w' => Function.update b (slot w') (b (slot w') + e w')) buf)
          (slot w) = buf (slot w) + e w) ∧
      (∀ i, (∀ w ∈ l, slot w ≠ i) →
        (l.foldl (fun b w' => Function.update b (slot w') (b (slot w') + e w')) buf)
          i = buf i) := by
  intro l
  induction l with
  | nil =>
    intro buf _
    exact ⟨fun w hw => absurd hw (List.not_mem_nil _), fun i _ => rfl⟩
  | cons w0 t ih =>
    intro buf hpw
    have hw0 : ∀ w ∈ t, slot w0 ≠ slot w := (List.pairwise_cons.mp hpw).1
    obtain ⟨ihMain, ihFrame⟩ :=
      ih (Function.update buf (slot w0) (buf (slot w0) + e w0))
        (List.pairwise_cons.mp hpw).2
    have hfold : (w0 :: t).foldl
        (fun b w' => Function.update b (slot w') (b (slot w') + e w')) buf =
        t.foldl (fun b w' => Function.update b (slot w') (b (slot w') + e w'))
          (Function.update buf (slot w0) (buf (slot w0) + e w0)) := rfl
    refine ⟨?_, ?_⟩
    · intro w hw
      rcases List.mem_cons.mp hw with hw | hw
      · subst hw
        rw [hfold, ihFrame (slot w) (fun w' hw' => (hw0 w' hw').symm),
          Function.update_same]
      · rw [hfold, ihMain w hw, Function.update_noteq (hw0 w hw).symm]
    · intro i hi
      rw [hfold, ihFrame i (fun w' hw' => hi w' (List.mem_cons_of_mem _ hw')),
        Function.update_noteq (hi w0 (List.mem_cons_self _ _)).symm]

/-- C9: `computeInteraction` accumulates each worker's partial energy into
`energyBuffer` with `+=` at flat index `blockIdx.x*blockDim.x + threadIdx.x`
and never clears the buffer: exactly one addition to the preexisting value
per worker, all other slots unchanged (so the caller must zero the buffer
beforehand for it to hold exactly the step's energy). -/
theorem c9_computeInteraction_energy_frame (gridDim blockDim numAtoms : ℕ)
    (numCombinations : ℕ → ℕ) (contrib : ℕ → ℕ → ℚ) (energyBuffer : ℕ → ℚ) :
    (∀ b t, b < gridDim → t < blockDim →
      computeInteractionEnergyBuffer gridDim blockDim numAtoms numCombinations
          contrib energyBuffer (b * blockDim + t) =
        energyBuffer (b * blockDim + t) +
          workerEnergy gridDim blockDim numAtoms numCombinations contrib b t) ∧
    (∀ idx, gridDim * blockDim ≤ idx →
      computeInteractionEnergyBuffer gridDim blockDim numAtoms numCombinations
          contrib energyBuffer idx = energyBuffer idx) := by
  have hslots := gridWorkers_map_slot gridDim blockDim
  have hnodup : List.Pairwise
      (fun w w' : ℕ × ℕ => w.1 * blockDim + w.2 ≠ w'.1 * blockDim + w'.2)
      (gridWorkers gridDim blockDim) := by
    have : ((gridWorkers gridDim blockDim).map
        (fun w => w.1 * blockDim + w.2)).Nodup := by
      rw [hslots]
      exact List.nodup_range _
    rw [List.Nodup, List.pairwise_map] at this
    exact this
  obtain ⟨hmain, hframe⟩ :=
    foldl_update_add (fun w => w.1 * blockDim + w.2)
      (fun w => workerEnergy gridDim blockDim numAtoms numCombinations contrib w.1 w.2)
      (gridWorkers gridDim blockDim) energyBuffer hnodup
  refine ⟨?_, ?_⟩
  · intro b t hb ht
    exact hmain (b, t) (by
      rw [gridWorkers, List.mem_flatMap]
      exact ⟨b, List.mem_range.mpr hb, List.mem_map.mpr ⟨t, List.mem_range.mpr ht, rfl⟩⟩)
  · intro idx hidx
    refine hframe idx ?_
    intro w hw
    have : w.1 * blockDim + w.2 ∈ List.range (gridDim * blockDim) := by
      rw [← hslots]
      exact List.mem_map.mpr ⟨w, hw, rfl⟩
    have := List.mem_range.mp this
    omega

theorem c9_witness :
    (∀ b t, b < 2 → t < 3 →
      computeInteractionEnergyBuffer 2 3 5 (fun _ => 4) (fun p1 i => p1 + i)
          (fun _ => 100) (b * 3 + t) =
        (fun _ => (100 : ℚ)) (b * 3 + t) +
          workerEnergy 2 3 5 (fun _ => 4) (fun p1 i => p1 + i) b t) ∧
    (∀ idx, 2 * 3 ≤ idx →
      computeInteractionEnergyBuffer 2 3 5 (fun _ => 4) (fun p1 i => p1 + i)
          (fun _ => 100) idx = (fun _ => (100 : ℚ)) idx) :=
  c9_computeInteraction_energy_frame 2 3 5 (fun _ => 4) (fun p1 i => (p1 + i : ℚ))
    (fun _ => 100)

/-- The nonbonded methods of `GayBerneForce`. -/
inductive NonbondedMethod where
  | NoCutoff
  | CutoffNonPeriodic
  | CutoffPeriodic
  deriving DecidableEq

/-- `ReferenceGayBerneForce::calculateForce`, lines 79-83: the geometry
guard.  The remainder of the routine (ellipsoid frames and pair loop, which
uses real square roots) is abstracted as the continuation `rest`, invoked
only when the guard passes; `rest` returns the energy and force array. -/
def calculateForce (nonbondedMethod : NonbondedMethod) (cutoffDistance : ℚ)
    (box00 box11 box22 : ℚ) (rest : Unit → ℚ × List V3) :
    Except String (ℚ × List V3) :=
  if nonbondedMethod = NonbondedMethod.CutoffPeriodic ∧
      (box00 < 1999999 / 1000000 * cutoffDistance ∨
       box11 < 1999999 / 1000000 * cutoffDistance ∨
       box22 < 1999999 / 1000000 * cutoffDistance) then
    Except.error "The periodic box size has decreased to less than twice the nonbonded cutoff."
  else Except.ok (rest ())

/-- C8 counterexample: with cutoff 1 and box x-dimension 1.9999995 — smaller
than twice the cutoff — `calculateForce` does not raise: the guard uses the
factor 1.999999, not 2, so this geometry violation is let through and the
interaction code runs. -/
theorem c8_counterexample :
    (19999995 / 10000000 : ℚ) < 2 * 1 ∧
      calculateForce NonbondedMethod.CutoffPeriodic 1 (19999995 / 10000000) 10 10
        (fun _ => (0, [])) = Except.ok (0, []) := by
  constructor
  · norm_num
  · rw [calculateForce, if_neg]
    rintro ⟨-, h | h | h⟩ <;> norm_num at h

/-- C8 (amended): when the method is cutoff-periodic and some box diagonal
entry is smaller than `1.999999 *` the cutoff distance, `calculateForce`
raises the exception before computing anything: the result is the error for
every continuation `rest`, so no interaction is evaluated and no force
written. -/
theorem c8_geometry_guard (cutoffDistance box00 box11 box22 : ℚ)
    (hviol : box00 < 1999999 / 1000000 * cutoffDistance ∨
      box11 < 1999999 / 1000000 * cutoffDistance ∨
      box22 < 1999999 / 1000000 * cutoffDistance) :
    ∀ rest : Unit → ℚ × List V3,
      calculateForce NonbondedMethod.CutoffPeriodic cutoffDistance box00 box11 box22
          rest =
        Except.error
          "The periodic box size has decreased to less than twice the nonbonded cutoff." := by
  intro rest
  rw [calculateForce, if_pos ⟨rfl, hviol⟩]

theorem c8_witness :
    calculateForce NonbondedMethod.CutoffPeriodic 1 (3 / 2) 10 10
        (fun _ => (0, [])) =
      Except.error
        "The periodic box size has decreased to less than twice the nonbonded cutoff." :=
  c8_geometry_guard 1 (3 / 2) 10 10 (Or.inl (by norm_num)) (fun _ => (0, []))

/-- The forward pool of candidate partners of anchor `p1` in the NoCutoff
`computeInteraction` kernel: `numNeighbors = NUM_ATOMS - p1 - 1` atoms,
namely `p1+1 .. NUM_ATOMS-1`. -/
def forwardPool (numAtoms p1 : ℕ) : List ℕ :=
  List.range' (p1 + 1) (numAtoms - p1 - 1)

/-- Modelled from the spec: the macros `FIND_ATOMS_FOR_COMBINATION_INDEX` /
`IS_VALID_COMBINATION` (host-generated code, not under src/) decode each
linear index below `NUM_CANDIDATE_COMBINATIONS` into "the unique ascending
index-tuple it represents" (spec 4.5, combinatorial unranking).  Over all
indices the inner loop therefore traverses exactly the ascending
`(G-1)`-element selections from the pool, each exactly once; we model that
traversal by the length-`k` sublists of the (ascending) pool. -/
def candidateCombinations (k : ℕ) (pool : List ℕ) : List (List ℕ) :=
  List.sublistsLen k pool

/-- All groups evaluated by `computeInteraction`'s double loop: each anchor
`p1 < NUM_ATOMS` prepended to each decoded combination from its pool. -/
def evaluatedGroups (numAtoms groupSize : ℕ) : List (List ℕ) :=
  (List.range numAtoms).flatMap fun p1 =>
    (candidateCombinations (groupSize - 1) (forwardPool numAtoms p1)).map
      fun c => p1 :: c

lemma forwardPool_sorted (numAtoms p1 : ℕ) :
    List.Pairwise (· < ·) (forwardPool numAtoms p1) :=
  List.pairwise_lt_range' _ _

lemma mem_forwardPool {numAtoms p1 x : ℕ} (hp1 : p1 < numAtoms) :
    x ∈ forwardPool numAtoms p1 ↔ p1 < x ∧ x < numAtoms := by
  rw [forwardPool, List.mem_range'_1]
  omega

lemma sublist_of_subset_sorted :
    ∀ (l2 l1 : List ℕ), List.Pairwise (· < ·) l1 → List.Pairwise (· < ·) l2 →
      (∀ x ∈ l1, x ∈ l2) → l1.Sublist l2 := by
  intro l2
  induction l2 with
  | nil =>
    intro l1 _ _ hsub
    cases l1 with
    | nil => exact List.Sublist.refl _
    | cons a t => exact absurd (hsub a (List.mem_cons_self _ _)) (List.not_mem_nil _)
  | cons b t2 ih =>
    intro l1 h1 h2 hsub
    cases l1 with
    | nil => exact List.nil_sublist _
    | cons a t1 =>
      have ha : ∀ x ∈ t1, a < x := (List.pairwise_cons.mp h1).1
      have hb : ∀ x ∈ t2, b < x := (List.pairwise_cons.mp h2).1
      by_cases hab : a = b
      · subst hab
        refine List.Sublist.cons₂ a (ih t1 (List.pairwise_cons.mp h1).2
          (List.pairwise_cons.mp h2).2 ?_)
        intro x hx
        rcases List.mem_cons.mp (hsub x (List.mem_cons_of_mem _ hx)) with hxa | hxt
        · exact absurd hxa (by
            have := ha x hx
            omega)
        · exact hxt
      · have hat2 : a ∈ t2 := by
          rcases List.mem_cons.mp (hsub a (List.mem_cons_self _ _)) with h | h
          · exact absurd h hab
          · exact h
        have hba : b < a := hb a hat2
        refine List.Sublist.cons b (ih (a :: t1) h1 (List.pairwise_cons.mp h2).2 ?_)
        intro x hx
        rcases List.mem_cons.mp (hsub x hx) with hxb | hxt
        · exfalso
          rcases List.mem_cons.mp hx with h | h
          · omega
          · have := ha x h
            omega
        · exact hxt

lemma nodup_candidateCombinations (k : ℕ) (pool : List ℕ)
    (hp : pool.Nodup) : (candidateCombinations k pool).Nodup := by
  have := (List.nodup_sublists'.mpr hp).sublist
    (List.sublistsLen_sublist_sublists' k pool)
  exact this

lemma countP_eq_count_of_iff {α : Type} [DecidableEq α] (a : α) (pred : α → Bool) :
    ∀ l : List α, (∀ x ∈ l, pred x = true ↔ x = a) → l.countP pred = l.count a := by
  intro l
  induction l with
  | nil => simp
  | cons x t ih =>
    intro h
    rw [List.countP_cons, List.count_cons,
      ih (fun y hy => h y (List.mem_cons_of_mem _ hy))]
    congr 1
    have hx := h x (List.mem_cons_self _ _)
    by_cases hxa : x = a
    · rw [if_pos (hx.mpr hxa)]
      simp [hxa]
    · rw [if_neg (fun hp => hxa (hx.mp hp))]
      simp [hxa]

lemma mem_evaluatedGroups_shape (numAtoms G : ℕ) (hG : 1 ≤ G) :
    ∀ g ∈ evaluatedGroups numAtoms G,
      g.length = G ∧ List.Pairwise (· < ·) g ∧
        ∃ p1 rest, g = p1 :: rest ∧ p1 < numAtoms ∧ ∀ a ∈ rest, p1 < a := by
  intro g hg
  rw [evaluatedGroups, List.mem_flatMap] at hg
  obtain ⟨p1, hp1, hg⟩ := hg
  rw [List.mem_map] at hg
  obtain ⟨c, hc, rfl⟩ := hg
  rw [candidateCombinations, List.mem_sublistsLen] at hc
  obtain ⟨hsub, hlen⟩ := hc
  have hp1N := List.mem_range.mp hp1
  have hmem : ∀ x ∈ c, p1 < x := fun x hx =>
    ((mem_forwardPool hp1N).mp (hsub.subset hx)).1
  refine ⟨?_, ?_, p1, c, rfl, hp1N, hmem⟩
  · simp only [List.length_cons, hlen]
    omega
  · exact List.pairwise_cons.mpr
      ⟨hmem, (forwardPool_sorted numAtoms p1).sublist hsub⟩

lemma nodup_evaluatedGroups (numAtoms G : ℕ) :
    (evaluatedGroups numAtoms G).Nodup := by
  rw [evaluatedGroups, List.nodup_flatMap]
  constructor
  · intro p1 _
    refine List.Nodup.map (fun a b hab => by injection hab) ?_
    exact nodup_candidateCombinations _ _
      ((forwardPool_sorted numAtoms p1).imp ne_of_lt)
  · refine (List.pairwise_lt_range numAtoms).imp ?_
    intro a b hab
    rw [Function.onFun]
    rw [List.disjoint_left]
    intro g hga hgb
    rw [List.mem_map] at hga hgb
    obtain ⟨c1, -, h1⟩ := hga
    obtain ⟨c2, -, h2⟩ := hgb
    rw [← h2] at h1
    injection h1 with h1 htail
    omega

/-- C2: every group evaluated by `computeInteraction` is a strictly
ascending tuple of `G` distinct particle indices whose first (lowest)
member is the anchor `p1 < NUM_ATOMS`, and over the whole enumeration each
`G`-element particle set within range occurs exactly once — in particular
no two evaluated groups are permutations of each other. -/
theorem c2_evaluatedGroups_canonical (numAtoms G : ℕ) (hG : 1 ≤ G) :
    (∀ g ∈ evaluatedGroups numAtoms G,
      g.length = G ∧ List.Pairwise (· < ·) g ∧
        ∃ p1 rest, g = p1 :: rest ∧ p1 < numAtoms ∧ ∀ a ∈ rest, p1 < a) ∧
    (∀ s : Finset ℕ, s.card = G → (∀ a ∈ s, a < numAtoms) →
      (evaluatedGroups numAtoms G).countP (fun g => decide (g.toFinset = s)) = 1) := by
  refine ⟨mem_evaluatedGroups_shape numAtoms G hG, ?_⟩
  intro s hcard hsmem
  set g0 : List ℕ := s.sort (· ≤ ·) with hg0
  have hg0sorted : List.Pairwise (· < ·) g0 := Finset.sort_sorted_lt s
  have hg0len : g0.length = G := by rw [hg0, Finset.length_sort, hcard]
  have hg0fin : g0.toFinset = s := by
    ext x
    rw [List.mem_toFinset, hg0, Finset.mem_sort]
  obtain ⟨p0, c0, hcons⟩ : ∃ p0 c0, g0 = p0 :: c0 := by
    cases hgg : g0 with
    | nil =>
      rw [hgg] at hg0len
      simp at hg0len
      omega
    | cons p0 c0 => exact ⟨p0, c0, rfl⟩
  have hginS : ∀ x ∈ g0, x ∈ s := by
    intro x hx
    rw [hg0] at hx
    exact (Finset.mem_sort _).mp hx
  have hp0N : p0 < numAtoms := hsmem p0 (hginS p0 (by rw [hcons]; exact List.mem_cons_self _ _))
  have hc0lt : ∀ x ∈ c0, p0 < x := by
    rw [hcons] at hg0sorted
    exact (List.pairwise_cons.mp hg0sorted).1
  have hc0sorted : List.Pairwise (· < ·) c0 := by
    rw [hcons] at hg0sorted
    exact (List.pairwise_cons.mp hg0sorted).2
  have hc0sub : c0.Sublist (forwardPool numAtoms p0) := by
    refine sublist_of_subset_sorted _ _ hc0sorted (forwardPool_sorted numAtoms p0) ?_
    intro x hx
    refine (mem_forwardPool hp0N).mpr ⟨hc0lt x hx, ?_⟩
    exact hsmem x (hginS x (by rw [hcons]; exact List.mem_cons_of_mem _ hx))
  have hc0len : c0.length = G - 1 := by
    rw [hcons] at hg0len
    simp only [List.length_cons] at hg0len
    omega
  have hg0mem : g0 ∈ evaluatedGroups numAtoms G := by
    rw [evaluatedGroups, List.mem_flatMap]
    refine ⟨p0, List.mem_range.mpr hp0N, ?_⟩
    rw [List.mem_map]
    exact ⟨c0, List.mem_sublistsLen.mpr ⟨hc0sub, hc0len⟩, hcons.symm⟩
  have huniq : ∀ g ∈ evaluatedGroups numAtoms G,
      (decide (g.toFinset = s) = true ↔ g = g0) := by
    intro g hg
    constructor
    · intro hdec
      have hgs : g.toFinset = s := of_decide_eq_true hdec
      obtain ⟨-, hgsorted, -⟩ := mem_evaluatedGroups_shape numAtoms G hG g hg
      have hperm : g.Perm g0 :=
        List.perm_of_nodup_nodup_toFinset_eq (hgsorted.imp ne_of_lt)
          (hg0sorted.imp ne_of_lt) (by rw [hgs, hg0fin])
      exact List.eq_of_perm_of_sorted hperm (hgsorted.imp le_of_lt)
        (hg0sorted.imp le_of_lt)
    · intro hgg
      subst hgg
      exact decide_eq_true hg0fin
  rw [countP_eq_count_of_iff g0 _ _ huniq]
  exact List.count_eq_one_of_mem (nodup_evaluatedGroups numAtoms G) hg0mem

theorem c2_witness :
    (∀ g ∈ evaluatedGroups 4 3,
      g.length = 3 ∧ List.Pairwise (· < ·) g ∧
        ∃ p1 rest, g = p1 :: rest ∧ p1 < 4 ∧ ∀ a ∈ rest, p1 < a) ∧
    (∀ s : Finset ℕ, s.card = 3 → (∀ a ∈ s, a < 4) →
      (evaluatedGroups 4 3).countP (fun g => decide (g.toFinset = s)) = 1) :=
  c2_evaluatedGroups_canonical 4 3 (by decide)

/-- The pairs held in the first `n` slots of the pair buffer. -/
def pairsList (f : ℕ → ℕ × ℕ) (n : ℕ) : List (ℕ × ℕ) := (List.range n).map f

/-- Second components of the buffered pairs with first component `a`, in
buffer order. -/
def secondsFor (f : ℕ → ℕ × ℕ) (n a : ℕ) : List ℕ :=
  ((pairsList f n).filter fun pr => decide (pr.1 = a)).map Prod.snd

/-- How many buffered pairs have first component `a`. -/
def countFirst (f : ℕ → ℕ × ℕ) (n a : ℕ) : ℕ := (secondsFor f n a).length

lemma secondsFor_succ (f : ℕ → ℕ × ℕ) (n a : ℕ) :
    secondsFor f (n + 1) a =
      if (f n).1 = a then secondsFor f n a ++ [(f n).2] else secondsFor f n a := by
  rw [secondsFor, secondsFor, pairsList, pairsList, List.range_succ, List.map_append,
    List.filter_append, List.map_append]
  by_cases h : (f n).1 = a <;> simp [h]

lemma countFirst_succ (f : ℕ → ℕ × ℕ) (n a : ℕ) :
    countFirst f (n + 1) a =
      if (f n).1 = a then countFirst f n a + 1 else countFirst f n a := by
  rw [countFirst, countFirst, secondsFor_succ]
  by_cases h : (f n).1 = a <;> simp [h]

lemma countFirst_zero (f : ℕ → ℕ × ℕ) (a : ℕ) : countFirst f 0 a = 0 := by
  simp [countFirst, secondsFor, pairsList]

lemma countFirst_mono (f : ℕ → ℕ × ℕ) (a : ℕ) :
    ∀ {n m : ℕ}, n ≤ m → countFirst f n a ≤ countFirst f m a := by
  intro n m hnm
  induction m with
  | zero =>
    have : n = 0 := by omega
    subst this
    exact le_refl _
  | succ m ih =>
    rcases Nat.lt_or_ge n (m + 1) with h | h
    · have := ih (by omega)
      rw [countFirst_succ]
      by_cases hc : (f m).1 = a
      · rw [if_pos hc]; omega
      · rw [if_neg hc]; omega
    · have : n = m + 1 := by omega
      subst this
      exact le_refl _

lemma start_cells_disjoint (f : ℕ → ℕ × ℕ) (start : ℕ → ℕ) (N nTot : ℕ)
    (hstart : ∀ k, k ≤ N → start k = ∑ i in Finset.range k, countFirst f nTot i)
    {a b t u : ℕ} (ha : a < N) (hb : b < N) (hab : a ≠ b)
    (ht : t < countFirst f nTot a) (hu : u < countFirst f nTot b) :
    start a + t ≠ start b + u := by
  have key : ∀ x y : ℕ, x < N → y < N → x < y → start x + countFirst f nTot x ≤ start y := by
    intro x y hx hy hxy
    rw [hstart x (by omega), hstart y (by omega), ← Finset.sum_range_succ]
    exact Finset.sum_le_sum_of_subset (Finset.range_subset.mpr (by omega))
  rcases lt_or_gt_of_ne hab with h | h
  · have := key a b ha hb h
    omega
  · have := key b a hb ha h
    omega

lemma copyLoop_invariant (f : ℕ → ℕ × ℕ) (start : ℕ → ℕ) (N nTot : ℕ)
    (hfst : ∀ i, i < nTot → (f i).1 < N)
    (hstart : ∀ k, k ≤ N → start k = ∑ i in Finset.range k, countFirst f nTot i)
    (cur0 buf0 : ℕ → ℕ) (hcur0 : ∀ a, cur0 a = 0) :
    ∀ n, n ≤ nTot →
      (∀ a, ((List.range n).foldl (copyPairStep f start) (cur0, buf0)).1 a =
        countFirst f n a) ∧
      (∀ a, a < N → ∀ t, t < countFirst f n a →
        ((List.range n).foldl (copyPairStep f start) (cur0, buf0)).2 (start a + t) =
          (secondsFor f n a).getD t 0) := by
  intro n
  induction n with
  | zero =>
    intro _
    refine ⟨?_, ?_⟩
    · intro a
      simp only [List.range_zero, List.foldl_nil]
      rw [hcur0 a, countFirst_zero]
    · intro a _ t ht
      rw [countFirst_zero] at ht
      omega
  | succ n ih =>
    intro hn
    obtain ⟨ihCur, ihBuf⟩ := ih (by omega)
    have hfold : (List.range (n + 1)).foldl (copyPairStep f start) (cur0, buf0) =
        copyPairStep f start
          ((List.range n).foldl (copyPairStep f start) (cur0, buf0)) n := by
      rw [List.range_succ, List.foldl_append, List.foldl_cons, List.foldl_nil]
    set stn := (List.range n).foldl (copyPairStep f start) (cur0, buf0) with hstn
    have ha0 : (f n).1 < N := hfst n (by omega)
    refine ⟨?_, ?_⟩
    · intro a
      rw [hfold, copyPairStep, countFirst_succ]
      by_cases hc : (f n).1 = a
      · rw [if_pos hc]
        simp only
        rw [hc, Function.update_same, ihCur a]
      · rw [if_neg hc]
        simp only
        rw [Function.update_noteq (fun hh => hc hh.symm), ihCur a]
    · intro a haN t ht
      rw [hfold, copyPairStep]
      simp only
      rw [secondsFor_succ]
      rw [countFirst_succ] at ht
      by_cases hc : (f n).1 = a
      · rw [if_pos hc] at ht ⊢
        rw [ihCur ((f n).1), hc]
        rcases Nat.lt_or_ge t (countFirst f n a) with htlt | hteq
        · rw [Function.update_noteq (by omega)]
          rw [ihBuf a haN t htlt]
          rw [List.getD_append _ _ _ _ (by rw [countFirst] at htlt; exact htlt)]
        · have hteq : t = countFirst f n a := by omega
          subst hteq
          rw [Function.update_same]
          have : (secondsFor f n a ++ [(f n).2]).getD (countFirst f n a) 0 = (f n).2 := by
            rw [countFirst]
            rw [List.getD_append_right _ _ _ _ (le_refl _)]
            simp
          rw [this]
      · rw [if_neg hc] at ht ⊢
        rw [ihCur ((f n).1)]
        have hdisj : start a + t ≠ start ((f n).1) + countFirst f n ((f n).1) := by
          refine start_cells_disjoint f start N nTot hstart haN ha0
            (fun hh => hc hh.symm) ?_ ?_
          · exact lt_of_lt_of_le ht (countFirst_mono f a (by omega))
          · refine lt_of_lt_of_le ?_
              (countFirst_mono f ((f n).1) (by omega : n + 1 ≤ nTot))
            have hcs := countFirst_succ f n ((f n).1)
            rw [if_pos rfl] at hcs
            omega
        rw [Function.update_noteq (fun hh => hdisj hh)]
        exact ihBuf a haN t ht

/-- C5: within capacity, with a correct exclusive-prefix-sum offset table
and zeroed per-particle cursors, `copyPairsToNeighborList` writes each pair
`(i, j)` at `neighborStartIndex[i]` plus the bumped cursor; afterwards each
particle's range `[neighborStartIndex[i], neighborStartIndex[i+1])` of the
`neighbors` array holds exactly the multiset of second components of its
buffered pairs, and the cursors have been overwritten with the counts. -/
theorem c5_copyPairsToNeighborList_scatter (f : ℕ → ℕ × ℕ) (start : ℕ → ℕ)
    (N numPairs maxPairs : ℕ) (cursors buf : ℕ → ℕ)
    (hcap : numPairs ≤ maxPairs)
    (hfst : ∀ i, i < numPairs → (f i).1 < N)
    (hstart : ∀ k, k ≤ N → start k = ∑ i in Finset.range k, countFirst f numPairs i)
    (hcur : ∀ a, cursors a = 0) :
    ∀ a, a < N →
      (copyPairsToNeighborList f numPairs maxPairs cursors start buf).1 a =
          countFirst f numPairs a ∧
      ((List.range' (start a) (start (a + 1) - start a)).map
          (copyPairsToNeighborList f numPairs maxPairs cursors start buf).2).Perm
        (secondsFor f numPairs a) := by
  intro a haN
  obtain ⟨hc, hbuf⟩ :=
    copyLoop_invariant f start N numPairs hfst hstart cursors buf hcur numPairs
      (le_refl _)
  have hunfold : copyPairsToNeighborList f numPairs maxPairs cursors start buf =
      (List.range numPairs).foldl (copyPairStep f start) (cursors, buf) := by
    rw [copyPairsToNeighborList, if_neg (not_lt.mpr hcap)]
  have hdiff : start (a + 1) - start a = countFirst f numPairs a := by
    rw [hstart (a + 1) (by omega), hstart a (by omega), Finset.sum_range_succ]
    omega
  refine ⟨by rw [hunfold]; exact hc a, ?_⟩
  have heq : (List.range' (start a) (start (a + 1) - start a)).map
      (copyPairsToNeighborList f numPairs maxPairs cursors start buf).2 =
      secondsFor f numPairs a := by
    rw [hdiff]
    refine List.ext_getElem ?_ ?_
    · rw [List.length_map, List.length_range', countFirst]
    · intro i h1 h2
      rw [List.getElem_map, List.getElem_range'_1, hunfold]
      rw [List.length_map, List.length_range'] at h1
      rw [hbuf a haN i h1]
      exact List.getD_eq_getElem _ _ h2
  rw [heq]

/-- Concrete pair buffer for the C5 witness: pairs (0,5), (1,7), (0,9). -/
def c5f : ℕ → ℕ × ℕ := fun i => if i = 0 then (0, 5) else if i = 1 then (1, 7) else (0, 9)

/-- Matching exclusive-offset table: counts are 2 pairs for atom 0, 1 for atom 1. -/
def c5start : ℕ → ℕ := fun k => if k = 0 then 0 else if k = 1 then 2 else 3

theorem c5_witness :
    (copyPairsToNeighborList c5f 3 5 (fun _ => 0) c5start (fun _ => 0)).1 0 =
        countFirst c5f 3 0 ∧
    ((List.range' (c5start 0) (c5start (0 + 1) - c5start 0)).map
        (copyPairsToNeighborList c5f 3 5 (fun _ => 0) c5start (fun _ => 0)).2).Perm
      (secondsFor c5f 3 0) :=
  c5_copyPairsToNeighborList_scatter c5f c5start 2 3 5 (fun _ => 0) (fun _ => 0)
    (by omega)
    (by intro i hi; interval_cases i <;> decide)
    (by intro k hk; interval_cases k <;> decide)
    (fun _ => rfl) 0 (by omega)

lemma commit_counter (m : ℕ) :
    ∀ (l : List (ℕ × List ℕ)) (st : ℕ × List (ℕ × ℕ)),
      (l.foldl (commitStep m) st).1 = st.1 + (l.map fun b => b.2.length).sum := by
  intro l
  induction l with
  | nil =>
    intro st
    simp
  | cons b t ih =>
    intro st
    rw [List.foldl_cons, ih]
    simp only [commitStep, List.map_cons, List.sum_cons]
    omega

lemma commit_writes (m : ℕ) :
    ∀ (l : List (ℕ × List ℕ)) (st : ℕ × List (ℕ × ℕ)),
      st.1 + (l.map fun b => b.2.length).sum ≤ m →
      (l.foldl (commitStep m) st).2 =
        st.2 ++ (l.map fun b => b.2.map fun j => (b.1, j)).flatten := by
  intro l
  induction l with
  | nil =>
    intro st _
    simp
  | cons b t ih =>
    intro st hle
    simp only [List.map_cons, List.sum_cons] at hle
    rw [List.foldl_cons]
    have hstep : commitStep m st b =
        (st.1 + b.2.length, st.2 ++ b.2.map fun j => (b.1, j)) := by
      rw [commitStep, if_pos (by omega)]
    rw [hstep, ih _ (by simp only; omega)]
    simp only [List.map_cons, List.flatten_cons, List.append_assoc]

lemma numNeighborsForAtom_eq_length (p : NeighborParams) (atom1 : ℕ) :
    numNeighborsForAtom p atom1 = (acceptedForAtom p atom1).length := by
  rw [numNeighborsForAtom, acceptedForAtom]
  have h : ∀ (bl : List ℕ) (c : ℕ),
      bl.foldl (fun t block2 => t + (if blockTest p (atom1 / p.tileSize) block2 then
        (includedAtoms p atom1 block2).length else 0)) c =
      c + (bl.flatMap fun block2 => if blockTest p (atom1 / p.tileSize) block2 then
        includedAtoms p atom1 block2 else []).length := by
    intro bl
    induction bl with
    | nil =>
      intro c
      simp
    | cons b2 t ih =>
      intro c
      rw [List.foldl_cons, List.flatMap_cons, List.length_append, ih]
      by_cases hb : blockTest p (atom1 / p.tileSize) b2
      · rw [if_pos hb, if_pos hb]
        omega
      · rw [if_neg hb, if_neg hb]
        simp
  rw [h, zero_add]

lemma batches_lengths_eq (p : NeighborParams) (atom1 : ℕ) :
    ((batchesForAtom p atom1).map fun b => b.2.length).sum =
      (acceptedForAtom p atom1).length := by
  rw [batchesForAtom, acceptedForAtom]
  set fc := fun block2 =>
    if blockTest p (atom1 / p.tileSize) block2 = true then
      if includedAtoms p atom1 block2 = [] then none
      else some (atom1, includedAtoms p atom1 block2)
    else none with hfc
  generalize blocksToSearch p (atom1 / p.tileSize) = bl
  induction bl with
  | nil => simp
  | cons b2 t ih =>
    by_cases hb : blockTest p (atom1 / p.tileSize) b2
    · by_cases hinc : includedAtoms p atom1 b2 = []
      · have hnone : fc b2 = none := by
          rw [hfc]
          simp [hb, hinc]
        rw [List.filterMap_cons_none hnone, List.flatMap_cons,
          if_pos hb, hinc, List.nil_append, ih]
      · have hsome : fc b2 = some (atom1, includedAtoms p atom1 b2) := by
          rw [hfc]
          simp [hb, hinc]
        rw [List.filterMap_cons_some hsome, List.map_cons,
          List.sum_cons, List.flatMap_cons, if_pos hb, List.length_append, ih]
    · have hnone : fc b2 = none := by
        rw [hfc]
        simp [hb]
      rw [List.filterMap_cons_none hnone, List.flatMap_cons, if_neg hb,
        List.nil_append, ih]

lemma sum_allBatches_lengths (p : NeighborParams) :
    ((allBatches p).map fun b => b.2.length).sum = totalNumNeighborPairs p := by
  rw [allBatches, totalNumNeighborPairs]
  generalize List.range p.numAtoms = al
  induction al with
  | nil => simp
  | cons a t ih =>
    rw [List.flatMap_cons, List.map_append, List.sum_append, ih, List.map_cons,
      List.sum_cons, batches_lengths_eq, numNeighborsForAtom_eq_length]

/-- C4: whatever order a schedule commits the reserved batches in, the
`numNeighborPairs` counter ends at the true total accepted-pair count (only
the writing of a batch that does not fit entirely is suppressed); and when
that count exceeds `maxNeighborPairs`, `copyPairsToNeighborList` returns
with the cursor and neighbors arrays untouched, so no truncated neighbor
list is ever produced and the caller can reallocate and re-run. -/
theorem c4_capacity_overflow (p : NeighborParams) (maxPairs : ℕ)
    (l : List (ℕ × List ℕ)) (hl : l.Perm (allBatches p))
    (pairsBuf : ℕ → ℕ × ℕ) (cursors start buf : ℕ → ℕ) :
    (commitBatches maxPairs l).1 = totalNumNeighborPairs p ∧
    (maxPairs < totalNumNeighborPairs p →
      copyPairsToNeighborList pairsBuf (commitBatches maxPairs l).1 maxPairs
          cursors start buf = (cursors, buf)) := by
  have hcount : (commitBatches maxPairs l).1 = totalNumNeighborPairs p := by
    rw [commitBatches, commit_counter, Nat.zero_add,
      (hl.map fun b => b.2.length).sum_eq, sum_allBatches_lengths]
  refine ⟨hcount, ?_⟩
  intro hover
  rw [hcount, copyPairsToNeighborList, if_pos hover]

/-- Concrete input for the C4 witness: three collinear atoms within the
cutoff (3 accepted pairs) against a capacity of 1. -/
def c4Params : NeighborParams where
  numAtoms := 3
  tileSize := 1
  cutoffSq := 100
  periodic := none
  posq := fun n => ⟨(n : ℚ), 0, 0⟩
  exclusions := []
  exclusionStartIndex := [0, 0, 0, 0]

theorem c4_witness :
    (commitBatches 1 (allBatches c4Params)).1 = totalNumNeighborPairs c4Params ∧
    (1 < totalNumNeighborPairs c4Params →
      copyPairsToNeighborList (fun _ => (0, 0))
          (commitBatches 1 (allBatches c4Params)).1 1
          (fun _ => 0) (fun _ => 0) (fun _ => 0) = (fun _ => 0, fun _ => 0)) :=
  c4_capacity_overflow c4Params 1 (allBatches c4Params) (List.Perm.refl _)
    (fun _ => (0, 0)) (fun _ => 0) (fun _ => 0) (fun _ => 0)

/-- Some per-component periodic image of `pos` lies in `[lo, hi]`. -/
def inInterval (Lopt : Option ℚ) (lo hi pos : ℚ) : Prop :=
  ∃ q : ℚ, isImage Lopt pos q ∧ lo ≤ q ∧ q ≤ hi

/-- Images of `pos` lie in the running `findBlockBounds` box, componentwise. -/
def coveredBy (per : Option V3) (mn mx pos : V3) : Prop :=
  inInterval (per.map V3.x) mn.x mx.x pos.x ∧
  inInterval (per.map V3.y) mn.y mx.y pos.y ∧
  inInterval (per.map V3.z) mn.z mx.z pos.z

lemma wrap0S_isImage (Lopt : Option ℚ) (pos : ℚ) :
    isImage Lopt pos (wrap0S Lopt pos) := by
  rcases Lopt with _ | L
  · rfl
  · exact ⟨-⌊pos / L⌋, by push_cast [wrap0S]; ring⟩

lemma wrapNearS_isImage (Lopt : Option ℚ) (c pos : ℚ) :
    isImage Lopt pos (wrapNearS Lopt c pos) := by
  rcases Lopt with _ | L
  · rfl
  · exact ⟨-⌊(pos - c) / L + 1 / 2⌋, by push_cast [wrapNearS]; ring⟩

lemma inInterval_mono {Lopt : Option ℚ} {lo hi lo' hi' pos : ℚ}
    (hlo : lo' ≤ lo) (hhi : hi ≤ hi') (h : inInterval Lopt lo hi pos) :
    inInterval Lopt lo' hi' pos := by
  obtain ⟨q, himg, h1, h2⟩ := h
  exact ⟨q, himg, le_trans hlo h1, le_trans h2 hhi⟩

lemma bbStep_preserves (per : Option V3) (posq : ℕ → V3) (st : V3 × V3) (i : ℕ)
    {pos : V3} (h : coveredBy per st.1 st.2 pos) :
    coveredBy per (bbStep per posq st i).1 (bbStep per posq st i).2 pos := by
  obtain ⟨hx, hy, hz⟩ := h
  refine ⟨inInterval_mono ?_ ?_ hx, inInterval_mono ?_ ?_ hy,
    inInterval_mono ?_ ?_ hz⟩ <;>
    simp only [bbStep, vmin, vmax] <;>
    first
      | exact min_le_left _ _
      | exact le_max_left _ _

lemma bbStep_new (per : Option V3) (posq : ℕ → V3) (st : V3 × V3) (i : ℕ) :
    coveredBy per (bbStep per posq st i).1 (bbStep per posq st i).2 (posq i) := by
  refine ⟨⟨wrapNearS (per.map V3.x) ((st.2.x + st.1.x) / 2) (posq i).x,
      wrapNearS_isImage _ _ _, ?_, ?_⟩,
    ⟨wrapNearS (per.map V3.y) ((st.2.y + st.1.y) / 2) (posq i).y,
      wrapNearS_isImage _ _ _, ?_, ?_⟩,
    ⟨wrapNearS (per.map V3.z) ((st.2.z + st.1.z) / 2) (posq i).z,
      wrapNearS_isImage _ _ _, ?_, ?_⟩⟩ <;>
    simp only [bbStep, vmin, vmax, wrapPosNear] <;>
    first
      | exact min_le_right _ _
      | exact le_max_right _ _

lemma blockFold_covers (per : Option V3) (posq : ℕ → V3) :
    ∀ (l : List ℕ) (st : V3 × V3),
      (∀ i ∈ l, coveredBy per (l.foldl (bbStep per posq) st).1
        (l.foldl (bbStep per posq) st).2 (posq i)) ∧
      (∀ pos : V3, coveredBy per st.1 st.2 pos →
        coveredBy per (l.foldl (bbStep per posq) st).1
          (l.foldl (bbStep per posq) st).2 pos) := by
  intro l
  induction l with
  | nil =>
    intro st
    exact ⟨fun i hi => absurd hi (List.not_mem_nil _), fun pos h => h⟩
  | cons i t ih =>
    intro st
    obtain ⟨ihMem, ihPres⟩ := ih (bbStep per posq st i)
    refine ⟨?_, ?_⟩
    · intro i' hi'
      rcases List.mem_cons.mp hi' with hi' | hi'
      · subst hi'
        exact ihPres _ (bbStep_new per posq st i')
      · exact ihMem i' hi'
    · intro pos h
      exact ihPres pos (bbStep_preserves per posq st i h)

lemma blockMinMax_covers (p : NeighborParams) (hT : 0 < p.tileSize) (b i : ℕ)
    (hi1 : b * p.tileSize ≤ i) (hi2 : i < (b + 1) * p.tileSize)
    (hiN : i < p.numAtoms) :
    coveredBy p.periodic (blockMinMax p b).1 (blockMinMax p b).2 (p.posq i) := by
  rw [blockMinMax]
  obtain ⟨hMem, hPres⟩ :=
    blockFold_covers p.periodic p.posq
      (List.range' (b * p.tileSize + 1)
        (min (b * p.tileSize + p.tileSize) p.numAtoms - (b * p.tileSize + 1)))
      (wrapPos0 p.periodic (p.posq (b * p.tileSize)),
       wrapPos0 p.periodic (p.posq (b * p.tileSize)))
  rcases Nat.eq_or_lt_of_le hi1 with hbase | hgt
  · rw [← hbase]
    refine hPres _ ?_
    refine ⟨⟨wrap0S (p.periodic.map V3.x) (p.posq (b * p.tileSize)).x,
        wrap0S_isImage _ _, ?_, ?_⟩,
      ⟨wrap0S (p.periodic.map V3.y) (p.posq (b * p.tileSize)).y,
        wrap0S_isImage _ _, ?_, ?_⟩,
      ⟨wrap0S (p.periodic.map V3.z) (p.posq (b * p.tileSize)).z,
        wrap0S_isImage _ _, ?_, ?_⟩⟩ <;>
      exact le_refl _
  · refine hMem i ?_
    rw [List.mem_range'_1]
    have hkey : (b + 1) * p.tileSize = b * p.tileSize + p.tileSize := by ring
    omega

lemma covered_bound (Lopt : Option ℚ) {lo hi pos : ℚ}
    (h : inInterval Lopt lo hi pos) :
    ∃ q, isImage Lopt pos q ∧ |q - (hi + lo) / 2| ≤ (hi - lo) / 2 := by
  obtain ⟨q, himg, h1, h2⟩ := h
  refine ⟨q, himg, ?_⟩
  rw [abs_le]
  constructor <;> linarith

lemma boxPos_x (p : NeighborParams)
    (hbox : ∀ L, p.periodic = some L → 0 < L.x ∧ 0 < L.y ∧ 0 < L.z) :
    ∀ L ∈ p.periodic.map V3.x, 0 < L := by
  intro L hL
  rcases hper : p.periodic with _ | B
  · rw [hper] at hL
    simp at hL
  · rw [hper] at hL
    simp only [Option.map_some', Option.mem_def, Option.some_inj] at hL
    rw [← hL]
    exact (hbox B hper).1

lemma boxPos_y (p : NeighborParams)
    (hbox : ∀ L, p.periodic = some L → 0 < L.x ∧ 0 < L.y ∧ 0 < L.z) :
    ∀ L ∈ p.periodic.map V3.y, 0 < L := by
  intro L hL
  rcases hper : p.periodic with _ | B
  · rw [hper] at hL
    simp at hL
  · rw [hper] at hL
    simp only [Option.map_some', Option.mem_def, Option.some_inj] at hL
    rw [← hL]
    exact (hbox B hper).2.1

lemma boxPos_z (p : NeighborParams)
    (hbox : ∀ L, p.periodic = some L → 0 < L.x ∧ 0 < L.y ∧ 0 < L.z) :
    ∀ L ∈ p.periodic.map V3.z, 0 < L := by
  intro L hL
  rcases hper : p.periodic with _ | B
  · rw [hper] at hL
    simp at hL
  · rw [hper] at hL
    simp only [Option.map_some', Option.mem_def, Option.some_inj] at hL
    rw [← hL]
    exact (hbox B hper).2.2

/-- The bounding-box pruning test is conservative: a tile holding an atom
whose wrapped squared distance to an atom of the first tile is below the
cutoff is never rejected. -/
lemma blockTest_of_close (p : NeighborParams) (hT : 0 < p.tileSize)
    (hbox : ∀ L, p.periodic = some L → 0 < L.x ∧ 0 < L.y ∧ 0 < L.z)
    {b1 b2 i j : ℕ}
    (hi1 : b1 * p.tileSize ≤ i) (hi2 : i < (b1 + 1) * p.tileSize)
    (hiN : i < p.numAtoms)
    (hj1 : b2 * p.tileSize ≤ j) (hj2 : j < (b2 + 1) * p.tileSize)
    (hjN : j < p.numAtoms)
    (hd : deltaW p.periodic (p.posq i) (p.posq j) < p.cutoffSq) :
    blockTest p b1 b2 = true := by
  obtain ⟨hcx1, hcy1, hcz1⟩ := blockMinMax_covers p hT b1 i hi1 hi2 hiN
  obtain ⟨hcx2, hcy2, hcz2⟩ := blockMinMax_covers p hT b2 j hj1 hj2 hjN
  obtain ⟨qx1, hix1, hbx1⟩ := covered_bound _ hcx1
  obtain ⟨qy1, hiy1, hby1⟩ := covered_bound _ hcy1
  obtain ⟨qz1, hiz1, hbz1⟩ := covered_bound _ hcz1
  obtain ⟨qx2, hix2, hbx2⟩ := covered_bound _ hcx2
  obtain ⟨qy2, hiy2, hby2⟩ := covered_bound _ hcy2
  obtain ⟨qz2, hiz2, hbz2⟩ := covered_bound _ hcz2
  have hx := sep_le_abs_wrapDeltaS (p.periodic.map V3.x) (boxPos_x p hbox)
    ((blockCenter p b1).x) ((blockBoundingBox p b1).x)
    ((blockCenter p b2).x) ((blockBoundingBox p b2).x)
    ((p.posq i).x) ((p.posq j).x) qx1 qx2 hix1 hix2 hbx1 hbx2
  have hy := sep_le_abs_wrapDeltaS (p.periodic.map V3.y) (boxPos_y p hbox)
    ((blockCenter p b1).y) ((blockBoundingBox p b1).y)
    ((blockCenter p b2).y) ((blockBoundingBox p b2).y)
    ((p.posq i).y) ((p.posq j).y) qy1 qy2 hiy1 hiy2 hby1 hby2
  have hz := sep_le_abs_wrapDeltaS (p.periodic.map V3.z) (boxPos_z p hbox)
    ((blockCenter p b1).z) ((blockBoundingBox p b1).z)
    ((blockCenter p b2).z) ((blockBoundingBox p b2).z)
    ((p.posq i).z) ((p.posq j).z) qz1 qz2 hiz1 hiz2 hbz1 hbz2
  have hsqx : max 0 (|wrapDeltaS (p.periodic.map V3.x)
        ((blockCenter p b1).x - (blockCenter p b2).x)| -
        (blockBoundingBox p b1).x - (blockBoundingBox p b2).x) *
      max 0 (|wrapDeltaS (p.periodic.map V3.x)
        ((blockCenter p b1).x - (blockCenter p b2).x)| -
        (blockBoundingBox p b1).x - (blockBoundingBox p b2).x) ≤
      wrapDeltaS (p.periodic.map V3.x) ((p.posq i).x - (p.posq j).x) *
        wrapDeltaS (p.periodic.map V3.x) ((p.posq i).x - (p.posq j).x) := by
    calc _ ≤ |wrapDeltaS (p.periodic.map V3.x) ((p.posq i).x - (p.posq j).x)| *
        |wrapDeltaS (p.periodic.map V3.x) ((p.posq i).x - (p.posq j).x)| :=
          mul_self_le_mul_self (le_max_left _ _) hx
      _ = _ := abs_mul_abs_self _
  have hsqy : max 0 (|wrapDeltaS (p.periodic.map V3.y)
        ((blockCenter p b1).y - (blockCenter p b2).y)| -
        (blockBoundingBox p b1).y - (blockBoundingBox p b2).y) *
      max 0 (|wrapDeltaS (p.periodic.map V3.y)
        ((blockCenter p b1).y - (blockCenter p b2).y)| -
        (blockBoundingBox p b1).y - (blockBoundingBox p b2).y) ≤
      wrapDeltaS (p.periodic.map V3.y) ((p.posq i).y - (p.posq j).y) *
        wrapDeltaS (p.periodic.map V3.y) ((p.posq i).y - (p.posq j).y) := by
    calc _ ≤ |wrapDeltaS (p.periodic.map V3.y) ((p.posq i).y - (p.posq j).y)| *
        |wrapDeltaS (p.periodic.map V3.y) ((p.posq i).y - (p.posq j).y)| :=
          mul_self_le_mul_self (le_max_left _ _) hy
      _ = _ := abs_mul_abs_self _
  have hsqz : max 0 (|wrapDeltaS (p.periodic.map V3.z)
        ((blockCenter p b1).z - (blockCenter p b2).z)| -
        (blockBoundingBox p b1).z - (blockBoundingBox p b2).z) *
      max 0 (|wrapDeltaS (p.periodic.map V3.z)
        ((blockCenter p b1).z - (blockCenter p b2).z)| -
        (blockBoundingBox p b1).z - (blockBoundingBox p b2).z) ≤
      wrapDeltaS (p.periodic.map V3.z) ((p.posq i).z - (p.posq j).z) *
        wrapDeltaS (p.periodic.map V3.z) ((p.posq i).z - (p.posq j).z) := by
    calc _ ≤ |wrapDeltaS (p.periodic.map V3.z) ((p.posq i).z - (p.posq j).z)| *
        |wrapDeltaS (p.periodic.map V3.z) ((p.posq i).z - (p.posq j).z)| :=
          mul_self_le_mul_self (le_max_left _ _) hz
      _ = _ := abs_mul_abs_self _
  simp only [deltaW, delta] at hd
  simp only [blockTest]
  rw [decide_eq_true_eq]
  linarith

lemma includeAtomB_iff (p : NeighborParams) (i j : ℕ) :
    includeAtomB p i j = true ↔
      i < j ∧ j < p.numAtoms ∧
        deltaW p.periodic (p.posq i) (p.posq j) < p.cutoffSq ∧
        isInteractionExcluded p i j = false := by
  rw [includeAtomB]
  simp only [Bool.and_eq_true, decide_eq_true_eq, Bool.not_eq_true']
  tauto

lemma mem_includedAtoms (p : NeighborParams) (i b2 j : ℕ) :
    j ∈ includedAtoms p i b2 ↔
      (b2 * p.tileSize ≤ j ∧ j < b2 * p.tileSize + p.tileSize) ∧
        includeAtomB p i j = true := by
  rw [includedAtoms, List.mem_filter, List.mem_range'_1]

lemma tile_div {T j b : ℕ} (hT : 0 < T) (h1 : b * T ≤ j) (h2 : j < b * T + T) :
    j / T = b :=
  Nat.div_eq_of_lt_le h1 (by
    rw [Nat.succ_mul]
    omega)

/-- Membership in the accepted-neighbor list of `atom1` coincides with the
brute-force pair predicate: the pruning never loses a qualifying pair and
the inner predicate admits nothing else. -/
lemma mem_acceptedForAtom_iff (p : NeighborParams) (hT : 0 < p.tileSize)
    (hbox : ∀ L, p.periodic = some L → 0 < L.x ∧ 0 < L.y ∧ 0 < L.z)
    (hsorted : ∀ a, List.Sorted (· ≤ ·) (exclusionSegment p a))
    (i : ℕ) (hi : i < p.numAtoms) (j : ℕ) :
    j ∈ acceptedForAtom p i ↔ bruteNeighbor p i j := by
  constructor
  · intro hj
    rw [acceptedForAtom, List.mem_flatMap] at hj
    obtain ⟨b2, hb2, hj⟩ := hj
    by_cases hbt : blockTest p (i / p.tileSize) b2
    · rw [if_pos hbt] at hj
      obtain ⟨⟨-, -⟩, hinc⟩ := (mem_includedAtoms p i b2 j).mp hj
      obtain ⟨h1, h2, h3, h4⟩ := (includeAtomB_iff p i j).mp hinc
      refine ⟨h1, h2, h3, ?_⟩
      intro hmem
      have := (isInteractionExcluded_iff p i j (hsorted i) h1).mpr hmem
      rw [this] at h4
      exact absurd h4 (by simp)
    · rw [if_neg hbt] at hj
      exact absurd hj (List.not_mem_nil _)
  · rintro ⟨h1, h2, h3, h4⟩
    have hexcl : isInteractionExcluded p i j = false := by
      rcases hb : isInteractionExcluded p i j with _ | _
      · rfl
      · exact absurd ((isInteractionExcluded_iff p i j (hsorted i) h1).mp hb) h4
    have hj1 : j / p.tileSize * p.tileSize ≤ j := Nat.div_mul_le_self j _
    have hj2 : j < j / p.tileSize * p.tileSize + p.tileSize := by
      have hdm := Nat.div_add_mod j p.tileSize
      have hml := Nat.mod_lt j hT
      have hcm : j / p.tileSize * p.tileSize = p.tileSize * (j / p.tileSize) :=
        Nat.mul_comm _ _
      omega
    have hi1 : i / p.tileSize * p.tileSize ≤ i := Nat.div_mul_le_self i _
    have hi2 : i < i / p.tileSize * p.tileSize + p.tileSize := by
      have hdm := Nat.div_add_mod i p.tileSize
      have hml := Nat.mod_lt i hT
      have hcm : i / p.tileSize * p.tileSize = p.tileSize * (i / p.tileSize) :=
        Nat.mul_comm _ _
      omega
    have hiLeJ : i / p.tileSize ≤ j / p.tileSize :=
      Nat.div_le_div_right (le_of_lt h1)
    have hb2lt : j / p.tileSize < numBlocks p := by
      rw [numBlocks]
      have hN1 : p.numAtoms + p.tileSize - 1 = (p.numAtoms - 1) + p.tileSize := by
        omega
      rw [hN1, Nat.add_div_right _ hT]
      have hdivle : j / p.tileSize ≤ (p.numAtoms - 1) / p.tileSize :=
        Nat.div_le_div_right (by omega)
      omega
    rw [acceptedForAtom, List.mem_flatMap]
    refine ⟨j / p.tileSize, ?_, ?_⟩
    · rw [blocksToSearch, List.mem_range'_1]
      omega
    · have hbt : blockTest p (i / p.tileSize) (j / p.tileSize) = true := by
        refine blockTest_of_close p hT hbox hi1 ?_ hi hj1 ?_ h2 h3
        · have hkey : (i / p.tileSize + 1) * p.tileSize =
              i / p.tileSize * p.tileSize + p.tileSize := by ring
          omega
        · have hkey : (j / p.tileSize + 1) * p.tileSize =
              j / p.tileSize * p.tileSize + p.tileSize := by ring
          omega
      rw [if_pos hbt, mem_includedAtoms]
      exact ⟨⟨hj1, hj2⟩, (includeAtomB_iff p i j).mpr ⟨h1, h2, h3, hexcl⟩⟩

lemma acceptedForAtom_nodup (p : NeighborParams) (hT : 0 < p.tileSize) (i : ℕ) :
    (acceptedForAtom p i).Nodup := by
  rw [acceptedForAtom, List.nodup_flatMap]
  constructor
  · intro b2 _
    by_cases hbt : blockTest p (i / p.tileSize) b2
    · rw [if_pos hbt]
      exact (List.nodup_range' _ _).filter _
    · rw [if_neg hbt]
      exact List.nodup_nil
  · refine (List.pairwise_lt_range' _ _).imp ?_
    intro a b hab
    rw [Function.onFun, List.disjoint_left]
    intro j hja hjb
    have hja' : a * p.tileSize ≤ j ∧ j < a * p.tileSize + p.tileSize := by
      by_cases hbt : blockTest p (i / p.tileSize) a
      · rw [if_pos hbt] at hja
        exact ((mem_includedAtoms p i a j).mp hja).1
      · rw [if_neg hbt] at hja
        exact absurd hja (List.not_mem_nil _)
    have hjb' : b * p.tileSize ≤ j ∧ j < b * p.tileSize + p.tileSize := by
      by_cases hbt : blockTest p (i / p.tileSize) b
      · rw [if_pos hbt] at hjb
        exact ((mem_includedAtoms p i b j).mp hjb).1
      · rw [if_neg hbt] at hjb
        exact absurd hjb (List.not_mem_nil _)
    have ha := tile_div hT hja'.1 hja'.2
    have hb := tile_div hT hjb'.1 hjb'.2
    omega

lemma numNeighbors_eq_brute (p : NeighborParams) (hT : 0 < p.tileSize)
    (hbox : ∀ L, p.periodic = some L → 0 < L.x ∧ 0 < L.y ∧ 0 < L.z)
    (hsorted : ∀ a, List.Sorted (· ≤ ·) (exclusionSegment p a))
    (i : ℕ) (hi : i < p.numAtoms) :
    numNeighborsForAtom p i =
      ((List.range p.numAtoms).filter fun j => decide (bruteNeighbor p i j)).length := by
  rw [numNeighborsForAtom_eq_length]
  have hnd1 := acceptedForAtom_nodup p hT i
  have hnd2 : ((List.range p.numAtoms).filter
      fun j => decide (bruteNeighbor p i j)).Nodup :=
    (List.nodup_range _).filter _
  refine List.Perm.length_eq ?_
  refine List.perm_of_nodup_nodup_toFinset_eq hnd1 hnd2 ?_
  ext j
  rw [List.mem_toFinset, List.mem_toFinset, List.mem_filter, List.mem_range,
    decide_eq_true_eq, mem_acceptedForAtom_iff p hT hbox hsorted i hi j]
  constructor
  · intro hb
    exact ⟨hb.2.1, hb⟩
  · exact fun h => h.2

lemma batches_pairs_eq (p : NeighborParams) (atom1 : ℕ) :
    ((batchesForAtom p atom1).map fun b => b.2.map fun j => (b.1, j)).flatten =
      (acceptedForAtom p atom1).map fun j => (atom1, j) := by
  rw [batchesForAtom, acceptedForAtom]
  set fc := fun block2 =>
    if blockTest p (atom1 / p.tileSize) block2 = true then
      if includedAtoms p atom1 block2 = [] then none
      else some (atom1, includedAtoms p atom1 block2)
    else none with hfc
  generalize blocksToSearch p (atom1 / p.tileSize) = bl
  induction bl with
  | nil => simp
  | cons b2 t ih =>
    by_cases hb : blockTest p (atom1 / p.tileSize) b2
    · by_cases hinc : includedAtoms p atom1 b2 = []
      · have hnone : fc b2 = none := by
          rw [hfc]
          simp [hb, hinc]
        rw [List.filterMap_cons_none hnone, List.flatMap_cons, if_pos hb, hinc,
          List.nil_append, ih]
      · have hsome : fc b2 = some (atom1, includedAtoms p atom1 b2) := by
          rw [hfc]
          simp [hb, hinc]
        rw [List.filterMap_cons_some hsome, List.map_cons, List.flatten_cons,
          List.flatMap_cons, if_pos hb, List.map_append, ih]
    · have hnone : fc b2 = none := by
        rw [hfc]
        simp [hb]
      rw [List.filterMap_cons_none hnone, List.flatMap_cons, if_neg hb,
        List.nil_append, ih]

lemma flatten_allBatches (p : NeighborParams) :
    ((allBatches p).map fun b => b.2.map fun j => (b.1, j)).flatten =
      allAcceptedPairs p := by
  rw [allBatches, allAcceptedPairs]
  generalize List.range p.numAtoms = al
  induction al with
  | nil => simp
  | cons a t ih =>
    rw [List.flatMap_cons, List.map_append, List.flatten_append, ih,
      List.flatMap_cons, batches_pairs_eq]

lemma commit_writes_all (p : NeighborParams) (maxPairs : ℕ)
    (l : List (ℕ × List ℕ)) (hl : l.Perm (allBatches p))
    (hcap : totalNumNeighborPairs p ≤ maxPairs) :
    (commitBatches maxPairs l).2.Perm (allAcceptedPairs p) := by
  rw [commitBatches, commit_writes maxPairs l (0, []) ?_]
  · rw [List.nil_append, ← flatten_allBatches p]
    exact (hl.map fun b => b.2.map fun j => (b.1, j)).flatten
  · simp only
    rw [Nat.zero_add, (hl.map fun b => b.2.length).sum_eq, sum_allBatches_lengths]
    exact hcap

/-- C1: for every input with positive tile width and positive periodic box
(when periodic) and sorted exclusion segments, the set of pairs accepted by
`findNeighbors` — counted in `numNeighborsForAtom`, and, capacity
permitting, written to `neighborPairs` under any commit order — equals the
brute-force set of pairs `i < j < NUM_ATOMS` with wrapped squared distance
strictly below cutoff² and `(i, j)` not excluded; the conservative tile
pruning never rejects a tile containing a qualifying pair, and the
brute-force characterization does not mention the tile width, so the
accepted set is independent of it. -/
theorem c1_findNeighbors_brute_force (p : NeighborParams) (hT : 0 < p.tileSize)
    (hbox : ∀ L, p.periodic = some L → 0 < L.x ∧ 0 < L.y ∧ 0 < L.z)
    (hsorted : ∀ a, List.Sorted (· ≤ ·) (exclusionSegment p a)) :
    (∀ i j, i < p.numAtoms → (j ∈ acceptedForAtom p i ↔ bruteNeighbor p i j)) ∧
    (∀ i, i < p.numAtoms → numNeighborsForAtom p i =
      ((List.range p.numAtoms).filter fun j => decide (bruteNeighbor p i j)).length) ∧
    (∀ maxPairs (l : List (ℕ × List ℕ)), l.Perm (allBatches p) →
      totalNumNeighborPairs p ≤ maxPairs →
      (commitBatches maxPairs l).2.Perm (allAcceptedPairs p)) :=
  ⟨fun i j hi => mem_acceptedForAtom_iff p hT hbox hsorted i hi j,
   fun i hi => numNeighbors_eq_brute p hT hbox hsorted i hi,
   fun maxPairs l hl hcap => commit_writes_all p maxPairs l hl hcap⟩

/-- Concrete periodic input for the C1 witness: box 10×10×10, two atoms at
x = 1 and x = 9.5 whose minimum-image distance 1.5 is below the cutoff 2. -/
def c1Params : NeighborParams where
  numAtoms := 2
  tileSize := 1
  cutoffSq := 4
  periodic := some ⟨10, 10, 10⟩
  posq := fun n => if n = 0 then ⟨1, 0, 0⟩ else ⟨19 / 2, 0, 0⟩
  exclusions := []
  exclusionStartIndex := [0, 0, 0]

theorem c1_witness :
    (∀ i j, i < c1Params.numAtoms →
      (j ∈ acceptedForAtom c1Params i ↔ bruteNeighbor c1Params i j)) ∧
    (∀ i, i < c1Params.numAtoms → numNeighborsForAtom c1Params i =
      ((List.range c1Params.numAtoms).filter
        fun j => decide (bruteNeighbor c1Params i j)).length) ∧
    (∀ maxPairs (l : List (ℕ × List ℕ)), l.Perm (allBatches c1Params) →
      totalNumNeighborPairs c1Params ≤ maxPairs →
      (commitBatches maxPairs l).2.Perm (allAcceptedPairs c1Params)) :=
  c1_findNeighbors_brute_force c1Params (by decide)
    (by
      intro L hL
      rw [show c1Params.periodic = some (⟨10, 10, 10⟩ : V3) from rfl] at hL
      injection hL with h
      rw [← h]
      exact ⟨by norm_num, by norm_num, by norm_num⟩)
    (by
      intro a
      have hnil : exclusionSegment c1Params a = [] := by
        rw [exclusionSegment]
        rw [show c1Params.exclusions = [] from rfl]
        simp
      rw [hnil]
      exact List.sorted_nil)
